import Mathlib

/-!
Verification of the FA abstract triage assistant (`src/app.py`).

The repository is a single Streamlit page. The behaviour under verification is:

* `classify_abstract` (app.py lines 28-94): the model's response text is cleaned by
  `response.text.strip().replace("```json", "").replace("```", "")` and then fed to
  `json.loads`; any exception yields `st.error(...)` and a `None` return.
* the button handler (app.py lines 127-139): an empty / whitespace-only abstract is
  rejected with a warning before `classify_abstract` is called; a parsed result is
  displayed only when it is truthy and passes the membership checks
  `"label" in result_data and "reason" in result_data`.
* startup (app.py lines 19-23): a missing / failing `st.secrets` lookup shows an
  error and calls `st.stop()`, so nothing downstream runs.

The evaluation model is a shallow embedding over `List Char`:

* `pyStrip` models Python `str.strip()` (Unicode whitespace at both ends);
* `pyReplaceDel pat` models Python `str.replace(pat, "")` (left-to-right,
  non-overlapping, no rescanning of the produced string);
* `parseJsonTop` models `json.loads` on `str` input: the JSON grammar with the
  Python extensions `NaN` / `Infinity` / `-Infinity`, strict rejection of raw
  control characters in strings, last-duplicate-key-wins objects, and an
  exact-end check ("Extra data" otherwise).  Two deliberate deviations, both
  documented at the definition sites: numbers are kept as exact rationals
  (CPython converts non-integer numerals to IEEE doubles), and `\uXXXX` escapes
  denoting lone UTF-16 surrogates are a parse failure (CPython produces a lone
  surrogate code unit, which a Lean `Char` cannot carry).
* `buttonHandler` models the button callback, including Python truthiness,
  the semantics of `in` on each possible `json.loads` result type (a
  `TypeError` on numbers and booleans), and the `result_data['label']`
  subscript (a `TypeError` on strings and lists).
-/

/-! ## Character classes and Python string primitives -/

/-- The JSON whitespace characters: exactly the set skipped by `json`'s
`WHITESPACE` matcher (space, tab, line feed, carriage return). -/
def isJsonWs (c : Char) : Bool :=
  c == ' ' || c == '\t' || c == '\n' || c == '\r'

/-- Python `str.isspace` (the set stripped by `str.strip()` with no argument):
the ASCII whitespace range 0x09-0x0D, space, the file/group/record/unit
separators 0x1C-0x1F, NEL (0x85), NBSP (0xA0), Ogham space mark (0x1680), the
Unicode space separators 0x2000-0x200A, line / paragraph separators (0x2028,
0x2029), narrow no-break space (0x202F), medium mathematical space (0x205F) and
ideographic space (0x3000). -/
def isPySpace (c : Char) : Bool :=
  (9 ≤ c.toNat && c.toNat ≤ 13) || c == ' ' ||
  (28 ≤ c.toNat && c.toNat ≤ 31) || c.toNat == 133 || c.toNat == 160 ||
  c.toNat == 5760 || (8192 ≤ c.toNat && c.toNat ≤ 8202) ||
  c.toNat == 8232 || c.toNat == 8233 || c.toNat == 8239 ||
  c.toNat == 8287 || c.toNat == 12288

/-- Drop leading JSON whitespace, as `json.decoder`'s `_w(s, idx).end()` does. -/
def skipWs (s : List Char) : List Char := s.dropWhile isJsonWs

/-- Python `response.text.strip()`: remove Unicode whitespace from both ends. -/
def pyStrip (s : List Char) : List Char :=
  ((s.dropWhile isPySpace).reverse.dropWhile isPySpace).reverse

/-- Trimming both ends by JSON whitespace only (an auxiliary notion used to
state whitespace lemmas; the code itself only uses `pyStrip`). -/
def jsonTrim (s : List Char) : List Char :=
  ((s.dropWhile isJsonWs).reverse.dropWhile isJsonWs).reverse

/-- Fueled worker for `pyReplaceDel`.  The fuel only forces termination: one
unit is spent per scanned position, so `fuel = s.length` never runs out
(`pyReplaceDelF_fuel` below); on exhaustion the remaining input is returned
unchanged. -/
def pyReplaceDelF (pat : List Char) : Nat → List Char → List Char
  | _, [] => []
  | 0, s => s
  | fuel + 1, c :: rest =>
    if !pat.isEmpty && pat.isPrefixOf (c :: rest) then
      pyReplaceDelF pat fuel ((c :: rest).drop pat.length)
    else
      c :: pyReplaceDelF pat fuel rest

/-- Python `s.replace(pat, "")` for a non-empty `pat`: scan left to right,
delete each non-overlapping occurrence of `pat`, never rescan produced text.
(The guard on `pat.isEmpty` is never hit by the two concrete patterns used in
`app.py`; for an empty pattern the function is the identity, unlike Python.) -/
def pyReplaceDel (pat s : List Char) : List Char := pyReplaceDelF pat s.length s

/-- The first fence artefact deleted on app.py line 85. -/
def fenceJsonPat : List Char := "```json".data

/-- The second fence artefact deleted on app.py line 85. -/
def fencePat : List Char := "```".data

/-- The two `replace` calls of app.py line 85, in source order:
`.replace("```json", "").replace("```", "")`. -/
def stripFences (s : List Char) : List Char :=
  pyReplaceDel fencePat (pyReplaceDel fenceJsonPat s)

/-- The full cleaning pipeline of app.py line 85:
`response.text.strip().replace("```json", "").replace("```", "")`. -/
def cleanResponse (s : List Char) : List Char := stripFences (pyStrip s)

/-- Scanning occurrence test: `hasPat pat s` is true iff `pat` occurs as a
contiguous substring of `s` (Python `pat in s`). -/
def hasPat (pat : List Char) : List Char → Bool
  | [] => pat.isPrefixOf []
  | c :: rest => pat.isPrefixOf (c :: rest) || hasPat pat rest

/-- The backtick character, named once to keep later statements readable. -/
def backtickChar : Char := Char.ofNat 96

/-! ## JSON values (the results of `json.loads`) -/

/-- Result values of `json.loads`.  `num` keeps the numeral's exact rational
value; CPython represents non-integer numerals as IEEE doubles and also keeps
the `int`/`float` distinction, neither of which any claim depends on (the two
are `==`-equal in Python whenever the rationals coincide).  `nanConst` and
`infConst` model the `NaN` / `Infinity` / `-Infinity` extensions, which CPython
accepts by default. -/
inductive Json where
  | null
  | bool (b : Bool)
  | num (q : ℚ)
  | str (chars : List Char)
  | arr (elems : List Json)
  | obj (members : List (List Char × Json))
  | nanConst
  | infConst (neg : Bool)

/-! ## String literals -/

/-- Value of one hexadecimal digit, accepting both cases (as `\uXXXX` does). -/
def hexDigitVal (c : Char) : Option Nat :=
  if '0' ≤ c && c ≤ '9' then some (c.toNat - 48)
  else if 'a' ≤ c && c ≤ 'f' then some (c.toNat - 87)
  else if 'A' ≤ c && c ≤ 'F' then some (c.toNat - 55)
  else none

/-- Four hex digits to their 16-bit value. -/
def hex4 (a b c d : Char) : Option Nat :=
  match hexDigitVal a, hexDigitVal b, hexDigitVal c, hexDigitVal d with
  | some x, some y, some z, some w => some (4096 * x + 256 * y + 16 * z + w)
  | _, _, _, _ => none

/-- The single-character escapes of the JSON grammar. -/
def escChar (e : Char) : Option Char :=
  if e == '"' then some '"'
  else if e == '\\' then some '\\'
  else if e == '/' then some '/'
  else if e == 'b' then some (Char.ofNat 8)
  else if e == 'f' then some (Char.ofNat 12)
  else if e == 'n' then some '\n'
  else if e == 'r' then some '\r'
  else if e == 't' then some '\t'
  else none

/-- Combine a UTF-16 surrogate pair into the denoted scalar value. -/
def combineSurr (hi lo : Nat) : Char :=
  Char.ofNat (65536 + (hi - 55296) * 1024 + (lo - 56320))

/-- Prepend a decoded character to a pending string-body result. -/
def mapConsStr (c : Char) (o : Option (List Char × List Char)) :
    Option (List Char × List Char) :=
  o.map (fun p => (c :: p.1, p.2))

/-- The four hex digits of a `\uXXXX` escape, after the `\u` lead-in. -/
def parseU4 (s : List Char) : Option (Nat × List Char) :=
  match s with
  | a :: b :: c :: d :: r =>
    match hex4 a b c d with
    | some n => some (n, r)
    | none => none
  | _ => none

/-- A `\u`-escaped low surrogate directly following a high one: the escape
lead-in `\u` plus four hex digits in the low-surrogate range. -/
def parseLowSurr (s : List Char) : Option (Nat × List Char) :=
  match s with
  | e2 :: u2 :: r =>
    if e2 == '\\' && u2 == 'u' then
      match parseU4 r with
      | some (m, r2) => if 56320 ≤ m && m ≤ 57343 then some (m, r2) else none
      | none => none
    else none
  | _ => none

/-- Fueled worker for `parseStringBody`.  The fuel only forces termination:
every recursive call consumes at least one character, so `fuel = s.length`
never runs out (`parseStringBodyF_fuel` below). -/
def parseStringBodyF : Nat → List Char → Option (List Char × List Char)
  | 0, _ => none
  | _ + 1, [] => none
  | fuel + 1, c :: rest =>
    if c == '"' then some ([], rest)
    else if c == '\\' then
      match rest with
      | [] => none
      | e :: rest2 =>
        if e == 'u' then
          match parseU4 rest2 with
          | none => none
          | some (n, rest3) =>
            if n < 55296 || 57343 < n then
              mapConsStr (Char.ofNat n) (parseStringBodyF fuel rest3)
            else if n ≤ 56319 then
              match parseLowSurr rest3 with
              | some (m, rest4) => mapConsStr (combineSurr n m) (parseStringBodyF fuel rest4)
              | none => none
            else none
        else
          match escChar e with
          | some d => mapConsStr d (parseStringBodyF fuel rest2)
          | none => none
    else if c.toNat < 32 then none
    else mapConsStr c (parseStringBodyF fuel rest)

/-- Body of a JSON string literal, after the opening quote: returns the decoded
content and the input after the closing quote.  Mirrors `json.decoder.scanstring`
in strict mode: raw control characters below 0x20 are rejected, the eight
simple escapes and `\uXXXX` are decoded, and a high surrogate followed by a
`\u`-escaped low surrogate combines into one scalar.  Deviation: CPython keeps
a *lone* surrogate escape as a lone UTF-16 code unit in the result; a Lean
`Char` cannot hold one, so this model treats a lone surrogate escape as a
parse failure instead. -/
def parseStringBody (s : List Char) : Option (List Char × List Char) :=
  parseStringBodyF s.length s

/-! ## Number literals -/

/-- Decimal value of a digit string. -/
def digitsToNat (ds : List Char) : Nat :=
  ds.foldl (fun a c => 10 * a + (c.toNat - 48)) 0

/-- The integer part `0 | [1-9][0-9]*` of json's `NUMBER_RE` (unsigned).
A leading `0` is never followed by more digits of the same numeral. -/
def parseIntDigits : List Char → Option (Nat × List Char)
  | [] => none
  | c :: rest =>
    if c == '0' then some (0, rest)
    else if c.isDigit then
      some (digitsToNat (c :: rest.takeWhile Char.isDigit), rest.dropWhile Char.isDigit)
    else none

/-- The optional fraction group `(\.\d+)?`: digits after a dot, or nothing (the
dot is left in the remainder when it is not followed by a digit). -/
def parseFracDigits : List Char → List Char × List Char
  | [] => ([], [])
  | d :: rest =>
    if d == '.' then
      match rest.takeWhile Char.isDigit with
      | [] => ([], d :: rest)
      | ds => (ds, rest.dropWhile Char.isDigit)
    else ([], d :: rest)

/-- The digits of an exponent group after the sign: a nonempty digit run, or
no match (the group is absent and the remainder restarts at the `e`). -/
def expDigits (c : Char) (rest r2 : List Char) (neg : Bool) :
    Option (Bool × Nat) × List Char :=
  match r2.takeWhile Char.isDigit with
  | [] => (none, c :: rest)
  | ds => (some (neg, digitsToNat ds), r2.dropWhile Char.isDigit)

/-- The optional exponent group `([eE][-+]?\d+)?`: returns the sign (`true` for
negative) and digits value, or `none` with the input untouched when the group
does not match. -/
def parseExpPart : List Char → Option (Bool × Nat) × List Char
  | [] => (none, [])
  | c :: rest =>
    if c == 'e' || c == 'E' then
      match rest with
      | [] => expDigits c rest [] false
      | d :: r2 =>
        if d == '+' then expDigits c rest r2 false
        else if d == '-' then expDigits c rest r2 true
        else expDigits c rest (d :: r2) false
    else (none, c :: rest)

/-- The exact rational value of a parsed numeral
`ip . fds e ex` (so `ip + 0.fds` scaled by the signed power of ten). -/
def mkNumQ (ip : Nat) (fds : List Char) (ex : Option (Bool × Nat)) : ℚ :=
  match ex with
  | none => mkRat (ip * 10 ^ fds.length + digitsToNat fds) (10 ^ fds.length)
  | some (eneg, ev) =>
    if eneg then
      mkRat (ip * 10 ^ fds.length + digitsToNat fds) (10 ^ (fds.length + ev))
    else
      mkRat ((ip * 10 ^ fds.length + digitsToNat fds) * 10 ^ ev) (10 ^ fds.length)

/-- An unsigned JSON numeral: integer part, optional fraction, optional
exponent, greedily matched exactly as `NUMBER_RE` does. -/
def parseUNum (s : List Char) : Option (ℚ × List Char) :=
  match parseIntDigits s with
  | none => none
  | some (ip, r1) =>
    match parseFracDigits r1 with
    | (fds, r2) =>
      match parseExpPart r2 with
      | (ex, r3) => some (mkNumQ ip fds ex, r3)

/-- A number-position token: a `NUMBER_RE` match with optional leading minus,
or the `-Infinity` constant (checked after the regex fails, as the scanner
does); anything else fails. -/
def parseNumber (s : List Char) : Option (Json × List Char) :=
  match s with
  | [] => none
  | c :: rest =>
    if c == '-' then
      if "Infinity".data.isPrefixOf rest then some (Json.infConst true, rest.drop 8)
      else
        match parseUNum rest with
        | some (q, r) => some (Json.num (-q), r)
        | none => none
    else
      match parseUNum (c :: rest) with
      | some (q, r) => some (Json.num q, r)
      | none => none

/-! ## The scanner (`scan_once` and its object / array loops)

The fuel argument only forces termination.  Each recursive call strictly
consumes input, so `3 * length + 3` units always suffice (`parseValue_fuel`
below proves fuel-irrelevance above that threshold). -/

mutual

/-- One JSON value at the current position (the position is never inside
leading whitespace: callers skip it first, exactly as `json.decoder` does). -/
def parseValue : Nat → List Char → Option (Json × List Char)
  | 0, _ => none
  | _ + 1, [] => none
  | fuel + 1, c :: rest =>
    if c == '"' then
      match parseStringBody rest with
      | some (cs, r) => some (Json.str cs, r)
      | none => none
    else if c == '{' then
      match skipWs rest with
      | [] => none
      | c1 :: r2 =>
        if c1 == '}' then some (Json.obj [], r2)
        else
          match parseMembers fuel (c1 :: r2) with
          | some (ms, r) => some (Json.obj ms, r)
          | none => none
    else if c == '[' then
      match skipWs rest with
      | [] => none
      | c1 :: r2 =>
        if c1 == ']' then some (Json.arr [], r2)
        else
          match parseElems fuel (c1 :: r2) with
          | some (es, r) => some (Json.arr es, r)
          | none => none
    else if c == 't' then
      if "rue".data.isPrefixOf rest then some (Json.bool true, rest.drop 3) else none
    else if c == 'f' then
      if "alse".data.isPrefixOf rest then some (Json.bool false, rest.drop 4) else none
    else if c == 'n' then
      if "ull".data.isPrefixOf rest then some (Json.null, rest.drop 3) else none
    else if c == 'N' then
      if "aN".data.isPrefixOf rest then some (Json.nanConst, rest.drop 2) else none
    else if c == 'I' then
      if "nfinity".data.isPrefixOf rest then some (Json.infConst false, rest.drop 7) else none
    else parseNumber (c :: rest)

/-- One-or-more `"key" : value` members (the empty object is handled by
`parseValue`); the input starts at the key's opening quote. -/
def parseMembers : Nat → List Char → Option (List (List Char × Json) × List Char)
  | 0, _ => none
  | fuel + 1, s =>
    match s with
    | [] => none
    | c :: rest =>
      if c == '"' then
        match parseStringBody rest with
        | none => none
        | some (key, r1) =>
          match skipWs r1 with
          | [] => none
          | c2 :: r2 =>
            if c2 == ':' then
              match parseValue fuel (skipWs r2) with
              | none => none
              | some (v, r3) =>
                match skipWs r3 with
                | [] => none
                | c3 :: r4 =>
                  if c3 == ',' then
                    match parseMembers fuel (skipWs r4) with
                    | some (ms, r5) => some ((key, v) :: ms, r5)
                    | none => none
                  else if c3 == '}' then some ([(key, v)], r4)
                  else none
            else none
      else none

/-- One-or-more comma-separated array elements (the empty array is handled by
`parseValue`); the input starts at the first element. -/
def parseElems : Nat → List Char → Option (List Json × List Char)
  | 0, _ => none
  | fuel + 1, s =>
    match parseValue fuel s with
    | none => none
    | some (v, r1) =>
      match skipWs r1 with
      | [] => none
      | c2 :: r2 =>
        if c2 == ',' then
          match parseElems fuel (skipWs r2) with
          | some (es, r3) => some (v :: es, r3)
          | none => none
        else if c2 == ']' then some ([v], r2)
        else none

end

/-! Shallow decompositions of the two loop bodies above.  Each continuation
names the state of the loop after one syntactic step, so that statements about
a loop iteration can be broken into statements about its steps.  They are
definitionally equal to the corresponding stages of `parseMembers` /
`parseElems` (`parseMembers_succ`, `parseElems_succ` below). -/

/-- The member loop after `"key" : value` has been read, remainder `r3`. -/
def membersAfterValue (f : Nat) (key : List Char) (v : Json) (r3 : List Char) :
    Option (List (List Char × Json) × List Char) :=
  match skipWs r3 with
  | [] => none
  | c3 :: r4 =>
    if c3 == ',' then
      match parseMembers f (skipWs r4) with
      | some (ms, r5) => some ((key, v) :: ms, r5)
      | none => none
    else if c3 == '}' then some ([(key, v)], r4)
    else none

/-- The member loop after `"key" :` has been read, remainder `r2`. -/
def membersAfterColon (f : Nat) (key : List Char) (r2 : List Char) :
    Option (List (List Char × Json) × List Char) :=
  match parseValue f (skipWs r2) with
  | none => none
  | some (v, r3) => membersAfterValue f key v r3

/-- The member loop after the key string has been read, remainder `r1`. -/
def membersAfterKey (f : Nat) (key r1 : List Char) :
    Option (List (List Char × Json) × List Char) :=
  match skipWs r1 with
  | [] => none
  | c2 :: r2 =>
    if c2 == ':' then membersAfterColon f key r2
    else none

/-- The element loop after one element value has been read, remainder `r1`. -/
def elemsAfterValue (f : Nat) (v : Json) (r1 : List Char) :
    Option (List Json × List Char) :=
  match skipWs r1 with
  | [] => none
  | c2 :: r2 =>
    if c2 == ',' then
      match parseElems f (skipWs r2) with
      | some (es, r3) => some (v :: es, r3)
      | none => none
    else if c2 == ']' then some ([v], r2)
    else none

/-- Python `json.loads` on a `str`: skip JSON whitespace, scan one value, skip
JSON whitespace, and require the end of the input (`Extra data` otherwise).
`none` models a raised `json.JSONDecodeError`. -/
def parseJsonTop (s : List Char) : Option Json :=
  match parseValue (3 * s.length + 4) (skipWs s) with
  | some (v, r) => if (skipWs r).isEmpty then some v else none
  | none => none

/-! ## `classify_abstract` and the page logic -/

/-- The response-processing part of `classify_abstract` (app.py lines 85-94),
as a function of the model's response text: clean the text, `json.loads` it,
and return the parsed value; `none` models the `except` branch (`st.error`
followed by `return None`), which also absorbs the `JSONDecodeError`. -/
def classifyParse (response_text : List Char) : Option Json :=
  parseJsonTop (cleanResponse response_text)

/-- `classify_abstract` on a stubbed model response given as a `String`.  The
prompt construction and the network call itself are outside the model: the
function is parameterised directly by the text the model returned. -/
def classify_abstract (response_text : String) : Option Json :=
  classifyParse response_text.data

/-- The key `"label"` checked on app.py line 132. -/
def labelKey : List Char := "label".data

/-- The key `"reason"` checked on app.py line 132. -/
def reasonKey : List Char := "reason".data

/-- The five labels enumerated in the classification prompt
(app.py lines 39-43). -/
def validLabels : List (List Char) :=
  ["SkyClarys/Omaveloxolone".data,
   "FA Mechanisms (Iron/Ferroptosis/ROS)".data,
   "Other Drugs/Compounds Targeting Iron/Ferroptosis/ROS".data,
   "General FA (Genetics/Clinical)".data,
   "Irrelevant".data]

/-- Python truthiness of a `json.loads` result (`if result_data ...`):
`None`, `False`, zero, and empty containers are falsy. -/
def pyTruthy : Json → Bool
  | Json.null => false
  | Json.bool b => b
  | Json.num q => !(q == 0)
  | Json.str s => !s.isEmpty
  | Json.arr xs => !xs.isEmpty
  | Json.obj kvs => !kvs.isEmpty
  | Json.nanConst => true
  | Json.infConst _ => true

/-- Python `key in result_data` for each possible `json.loads` result type:
key membership on a dict, element equality on a list, substring test on a str,
and a `TypeError` (modelled by `none`) on numbers and booleans (`None` also
raises, but the handler's truthiness check short-circuits before reaching it). -/
def pyContainsKey (k : List Char) : Json → Option Bool
  | Json.obj kvs => some (kvs.any (fun p => p.1 == k))
  | Json.arr xs =>
    some (xs.any (fun x =>
      match x with
      | Json.str s => s == k
      | _ => false))
  | Json.str s => some (hasPat k s)
  | _ => none

/-- Python `dict[k]` on the dict built by `json.loads`: with duplicate keys the
last occurrence wins, so lookup returns the value of the rightmost match. -/
def objGet (k : List Char) : List (List Char × Json) → Option Json
  | [] => none
  | (k2, v) :: rest =>
    match objGet k rest with
    | some r => some r
    | none => if k2 == k then some v else none

/-- Outcomes of one click of the "Classify Abstract" button. -/
inductive HandlerOutcome where
  | warned
  | showed (label reason : Json)
  | parseErrorShown
  | raisedTypeError

/-- The button handler (app.py lines 127-139) on a given abstract text and a
given model response: warn (without any classify call) on empty / blank input;
otherwise classify, and display label and reason only when the result is
truthy and passes both membership checks; `raisedTypeError` marks the two
spots where the Python code would raise an uncaught `TypeError` (membership
test on a number or boolean, subscript on a str or list). -/
def buttonHandler (userInput responseText : List Char) : HandlerOutcome :=
  if userInput.isEmpty || (pyStrip userInput).isEmpty then HandlerOutcome.warned
  else
    match classifyParse responseText with
    | none => HandlerOutcome.parseErrorShown
    | some j =>
      if !pyTruthy j then HandlerOutcome.parseErrorShown
      else
        match pyContainsKey labelKey j with
        | none => HandlerOutcome.raisedTypeError
        | some false => HandlerOutcome.parseErrorShown
        | some true =>
          match pyContainsKey reasonKey j with
          | none => HandlerOutcome.raisedTypeError
          | some false => HandlerOutcome.parseErrorShown
          | some true =>
            match j with
            | Json.obj kvs =>
              HandlerOutcome.showed ((objGet labelKey kvs).getD Json.null)
                ((objGet reasonKey kvs).getD Json.null)
            | _ => HandlerOutcome.raisedTypeError

/-- State after the startup block (app.py lines 19-23). -/
inductive AppState where
  | halted
  | ready (api_key : String)

/-- Startup configuration: a missing secret (the `KeyError` / `AttributeError`
branch) shows an error and calls `st.stop()`, halting the script. -/
def startupConfigure (google_api_key : Option String) : AppState :=
  match google_api_key with
  | some k => AppState.ready k
  | none => AppState.halted

/-- The whole script on one button click: when startup halted, no downstream
code (in particular no classify call and no handler) runs at all. -/
def runApp (google_api_key : Option String) (userInput responseText : List Char) :
    Option HandlerOutcome :=
  match startupConfigure google_api_key with
  | AppState.halted => none
  | AppState.ready _ => some (buttonHandler userInput responseText)

/-- The fenced form of a response text, as in the spec's concrete scenario:
` ```json\n ... \n``` ` with surrounding whitespace. -/
def fenceWrap (t : List Char) : List Char :=
  " ```json\n".data ++ t ++ "\n``` ".data

/-- Boundary-whitespace condition: every character that `str.strip()` removes
from either end is JSON whitespace (space, tab, LF, CR). -/
def boundaryJsonWs (s : List Char) : Bool :=
  (s.takeWhile isPySpace).all isJsonWs && (s.reverse.takeWhile isPySpace).all isJsonWs

/-! ## Sanity checks of the embedding on concrete data -/

theorem embed_check1 : classify_abstract "\x7b\"label\":\"Irrelevant\",\"reason\":\"no FA link\"\x7d" =
    some (Json.obj [("label".data, Json.str "Irrelevant".data),
                    ("reason".data, Json.str "no FA link".data)]) := rfl

theorem embed_check2 : classify_abstract " ```json\n\x7b\"label\":\"Irrelevant\",\"reason\":\"no FA link\"\x7d\n``` " =
    some (Json.obj [("label".data, Json.str "Irrelevant".data),
                    ("reason".data, Json.str "no FA link".data)]) := rfl

theorem embed_check3 : classify_abstract "I cannot comply with this request." = none := rfl

theorem embed_check4 : classify_abstract "5" = some (Json.num (mkRat 5 1)) := rfl

theorem embed_check5 : classify_abstract "[1, 2]" =
    some (Json.arr [Json.num (mkRat 1 1), Json.num (mkRat 2 1)]) := rfl

theorem embed_check6 : classify_abstract "\x7b\"a\": true, \"a\": null\x7d" =
    some (Json.obj [("a".data, Json.bool true), ("a".data, Json.null)]) := rfl

theorem embed_check7 : objGet "a".data [("a".data, Json.bool true), ("a".data, Json.null)] =
    some Json.null := rfl

theorem embed_check8 : classify_abstract "-Infinity" = some (Json.infConst true) := rfl

theorem embed_check9 : classify_abstract "1.5e2" = some (Json.num (mkRat 150 1)) := rfl

theorem embed_check10 : classify_abstract "\"a\\u0041b\"" = some (Json.str ['a', 'A', 'b']) := rfl

theorem embed_check11 : classify_abstract "\x7b\"label\":1\x7d\x0b" =
    some (Json.obj [("label".data, Json.num (mkRat 1 1))]) := rfl

theorem embed_check12 : parseJsonTop "\x7b\"label\":1\x7d\x0b".data = none := rfl

theorem embed_check13 : buttonHandler "abstract".data "5".data = HandlerOutcome.raisedTypeError := rfl

theorem embed_check14 : buttonHandler "  ".data "5".data = HandlerOutcome.warned := rfl

theorem embed_check15 : stripFences "`````json".data = "``".data := rfl

theorem embed_check16 : stripFences "``x```json".data = "``x".data := rfl

/-! ## Basic lemmas: prefixes, `takeWhile` / `dropWhile` -/

/-- The empty pattern is a prefix of everything. -/
theorem nil_isPrefixOf (s : List Char) : ([] : List Char).isPrefixOf s = true := by
  cases s <;> rfl

/-- Unfolding `isPrefixOf` on two cons cells. -/
theorem cons_isPrefixOf_cons (a b : Char) (as bs : List Char) :
    (a :: as).isPrefixOf (b :: bs) = (a == b && as.isPrefixOf bs) := rfl

/-- A nonempty pattern is not a prefix of the empty list. -/
theorem cons_isPrefixOf_nil (a : Char) (as : List Char) :
    (a :: as).isPrefixOf ([] : List Char) = false := rfl

/-- A prefix is never longer than the whole list. -/
theorem isPrefixOf_length : ∀ (p s : List Char), p.isPrefixOf s = true → p.length ≤ s.length
  | [], s, _ => by simp
  | _ :: _, [], h => by rw [cons_isPrefixOf_nil] at h; exact absurd h (by simp)
  | a :: as, b :: bs, h => by
    rw [cons_isPrefixOf_cons, Bool.and_eq_true] at h
    simpa using Nat.succ_le_succ (isPrefixOf_length as bs h.2)

/-- Extending the list on the right preserves prefixes. -/
theorem isPrefixOf_append_right :
    ∀ (p s w : List Char), p.isPrefixOf s = true → p.isPrefixOf (s ++ w) = true
  | [], s, w, _ => nil_isPrefixOf (s ++ w)
  | _ :: _, [], _, h => by rw [cons_isPrefixOf_nil] at h; exact absurd h (by simp)
  | a :: as, b :: bs, w, h => by
    rw [cons_isPrefixOf_cons, Bool.and_eq_true] at h
    rw [List.cons_append, cons_isPrefixOf_cons, Bool.and_eq_true]
    exact ⟨h.1, isPrefixOf_append_right as bs w h.2⟩

/-- When the first appended character is not a character of `p`, a prefix match
cannot reach into the appended part: it already lies inside `s`. -/
theorem prefixOf_append_head :
    ∀ (p s w : List Char), (∀ c, w.head? = some c → c ∉ p) →
      p.isPrefixOf (s ++ w) = true → p.isPrefixOf s = true ∧ p.length ≤ s.length
  | [], s, _, _, _ => ⟨nil_isPrefixOf s, by simp⟩
  | a :: as, [], w, hw, h => by
    cases w with
    | nil => rw [List.append_nil, cons_isPrefixOf_nil] at h; exact absurd h (by simp)
    | cons x w2 =>
      rw [List.nil_append, cons_isPrefixOf_cons, Bool.and_eq_true, beq_iff_eq] at h
      exact absurd (show x ∈ a :: as by rw [← h.1]; exact List.mem_cons_self a as) (hw x rfl)
  | a :: as, b :: bs, w, hw, h => by
    rw [List.cons_append, cons_isPrefixOf_cons, Bool.and_eq_true] at h
    have ih := prefixOf_append_head as bs w
      (fun c hc hm => hw c hc (List.mem_cons_of_mem _ hm)) h.2
    refine ⟨?_, Nat.succ_le_succ ih.2⟩
    rw [cons_isPrefixOf_cons, Bool.and_eq_true]
    exact ⟨h.1, ih.1⟩

/-- Dropping over an all-satisfying prefix block just removes the block. -/
theorem dropWhile_append_all {p : Char → Bool} :
    ∀ (w s : List Char), (∀ c ∈ w, p c = true) →
      List.dropWhile p (w ++ s) = List.dropWhile p s
  | [], _, _ => rfl
  | c :: w2, s, h => by
    rw [List.cons_append, List.dropWhile_cons_of_pos (h c (List.mem_cons_self _ _))]
    exact dropWhile_append_all w2 s (fun d hd => h d (List.mem_cons_of_mem _ hd))

/-- Appending after a block that `dropWhile` does not fully consume. -/
theorem dropWhile_append_of_ne_nil {p : Char → Bool} (s w : List Char)
    (h : List.dropWhile p s ≠ []) :
    List.dropWhile p (s ++ w) = List.dropWhile p s ++ w := by
  rw [List.dropWhile_append]
  simp [List.isEmpty_iff, h]

/-- When the first appended character fails `p`, `takeWhile` and `dropWhile`
split an append exactly at the old boundary. -/
theorem takeWhile_dropWhile_append {p : Char → Bool} :
    ∀ (s w : List Char), (∀ c, w.head? = some c → p c = false) →
      (s ++ w).takeWhile p = s.takeWhile p ∧ (s ++ w).dropWhile p = s.dropWhile p ++ w
  | [], w, hw => by
    cases w with
    | nil => simp
    | cons x w2 =>
      have hx := hw x rfl
      simp [List.takeWhile_cons, List.dropWhile_cons, hx]
  | c :: s2, w, hw => by
    by_cases hc : p c = true
    · have ih := takeWhile_dropWhile_append s2 w hw
      simp [List.takeWhile_cons, List.dropWhile_cons, hc, ih.1, ih.2]
    · simp [List.takeWhile_cons, List.dropWhile_cons, hc]

/-- Everything before the first `p`-failure satisfies `p`. -/
theorem all_of_dropWhile_eq_nil {p : Char → Bool} (s : List Char)
    (h : List.dropWhile p s = []) : ∀ c ∈ s, p c = true :=
  List.dropWhile_eq_nil_iff.mp h

/-! ## Lemmas about `pyReplaceDel` (Python `str.replace(pat, "")`) -/

/-- The pattern of an occurrence match is nonempty and no longer than the rest. -/
theorem pat_length_pos {pat : List Char} {s : List Char}
    (h : (!pat.isEmpty && pat.isPrefixOf s) = true) :
    1 ≤ pat.length ∧ pat.length ≤ s.length := by
  rw [Bool.and_eq_true] at h
  refine ⟨?_, isPrefixOf_length _ _ h.2⟩
  cases pat with
  | nil => simp at h
  | cons _ _ => simp

/-- Fuel does not matter once it covers the input length. -/
theorem pyReplaceDelF_fuel (pat : List Char) :
    ∀ (f g : Nat) (s : List Char), s.length ≤ f → s.length ≤ g →
      pyReplaceDelF pat f s = pyReplaceDelF pat g s
  | f, g, [], _, _ => by cases f <;> cases g <;> rfl
  | 0, _, _ :: _, hf, _ => by simp at hf
  | _ + 1, 0, _ :: _, _, hg => by simp at hg
  | f + 1, g + 1, c :: rest, hf, hg => by
    show (if !pat.isEmpty && pat.isPrefixOf (c :: rest) then
        pyReplaceDelF pat f ((c :: rest).drop pat.length)
      else c :: pyReplaceDelF pat f rest) =
      (if !pat.isEmpty && pat.isPrefixOf (c :: rest) then
        pyReplaceDelF pat g ((c :: rest).drop pat.length)
      else c :: pyReplaceDelF pat g rest)
    simp only [List.length_cons] at hf hg
    by_cases h : (!pat.isEmpty && pat.isPrefixOf (c :: rest)) = true
    · rw [if_pos h, if_pos h]
      have hp := pat_length_pos h
      simp only [List.length_cons] at hp
      refine pyReplaceDelF_fuel pat f g _ ?_ ?_ <;>
        · rw [List.length_drop, List.length_cons]; omega
    · rw [if_neg h, if_neg h,
        pyReplaceDelF_fuel pat f g rest (by omega) (by omega)]

/-- Unfolding equation for `pyReplaceDel` on a cons cell. -/
theorem pyReplaceDel_cons (pat : List Char) (c : Char) (rest : List Char) :
    pyReplaceDel pat (c :: rest) =
      if !pat.isEmpty && pat.isPrefixOf (c :: rest) then
        pyReplaceDel pat ((c :: rest).drop pat.length)
      else c :: pyReplaceDel pat rest := by
  show (if !pat.isEmpty && pat.isPrefixOf (c :: rest) then
      pyReplaceDelF pat rest.length ((c :: rest).drop pat.length)
    else c :: pyReplaceDelF pat rest.length rest) = _
  by_cases h : (!pat.isEmpty && pat.isPrefixOf (c :: rest)) = true
  · rw [if_pos h, if_pos h]
    have hp := pat_length_pos h
    simp only [List.length_cons] at hp
    exact pyReplaceDelF_fuel pat rest.length _ _
      (by rw [List.length_drop, List.length_cons]; omega) le_rfl
  · rw [if_neg h, if_neg h]; rfl

/-- `pyReplaceDel` never changes a string in which the pattern does not occur. -/
theorem pyReplaceDel_of_not_hasPat (pat : List Char) :
    ∀ (s : List Char), hasPat pat s = false → pyReplaceDel pat s = s
  | [], _ => rfl
  | c :: rest, h => by
    rw [show hasPat pat (c :: rest) = (pat.isPrefixOf (c :: rest) || hasPat pat rest) from rfl,
      Bool.or_eq_false_iff] at h
    rw [pyReplaceDel_cons, if_neg (by simp [h.1]), pyReplaceDel_of_not_hasPat pat rest h.2]

/-- With an empty pattern, the (guarded) deletion is the identity. -/
theorem pyReplaceDel_nil_pat : ∀ (s : List Char), pyReplaceDel ([] : List Char) s = s
  | [] => rfl
  | c :: rest => by
    rw [pyReplaceDel_cons, if_neg (by simp), pyReplaceDel_nil_pat rest]

/-- A pattern sharing no character with `w` does not occur in `w`. -/
theorem hasPat_eq_false_of_disjoint (p0 : Char) (pat2 : List Char) :
    ∀ (w : List Char), (∀ c ∈ w, c ∉ p0 :: pat2) → hasPat (p0 :: pat2) w = false
  | [], _ => rfl
  | c :: w2, hw => by
    rw [show hasPat (p0 :: pat2) (c :: w2) =
        ((p0 :: pat2).isPrefixOf (c :: w2) || hasPat (p0 :: pat2) w2) from rfl,
      Bool.or_eq_false_iff]
    refine ⟨?_, hasPat_eq_false_of_disjoint p0 pat2 w2
      (fun d hd => hw d (List.mem_cons_of_mem _ hd))⟩
    rw [cons_isPrefixOf_cons]
    have : (p0 == c) = false := by
      by_contra hb
      rw [Bool.not_eq_false, beq_iff_eq] at hb
      exact hw c (List.mem_cons_self _ _) (hb ▸ List.mem_cons_self _ _)
    simp [this]

/-- Deletion commutes with a left block none of whose characters can start the
pattern. -/
theorem pyReplaceDel_append_left (pat : List Char) :
    ∀ (w s : List Char), (∀ c ∈ w, pat.head? ≠ some c) →
      pyReplaceDel pat (w ++ s) = w ++ pyReplaceDel pat s
  | [], _, _ => rfl
  | c :: w2, s, hw => by
    rw [List.cons_append, pyReplaceDel_cons]
    have hcond : (!pat.isEmpty && pat.isPrefixOf (c :: (w2 ++ s))) = false := by
      cases pat with
      | nil => rfl
      | cons p0 pat2 =>
        rw [cons_isPrefixOf_cons]
        have : (p0 == c) = false := by
          by_contra hb
          rw [Bool.not_eq_false, beq_iff_eq] at hb
          exact hw c (List.mem_cons_self _ _) (by rw [hb]; rfl)
        simp [this]
    rw [if_neg (by simp [hcond]),
      pyReplaceDel_append_left pat w2 s (fun d hd => hw d (List.mem_cons_of_mem _ hd))]
    rfl

/-- Deletion commutes with a right block sharing no character with the pattern. -/
theorem pyReplaceDel_append_right (pat w : List Char) (hw : ∀ c ∈ w, c ∉ pat) :
    ∀ (s : List Char), pyReplaceDel pat (s ++ w) = pyReplaceDel pat s ++ w
  | [] => by
    cases pat with
    | nil => rw [List.nil_append, pyReplaceDel_nil_pat, pyReplaceDel_nil_pat]; rfl
    | cons p0 pat2 =>
      rw [List.nil_append,
        pyReplaceDel_of_not_hasPat _ w (hasPat_eq_false_of_disjoint p0 pat2 w hw)]
      rfl
  | c :: s2 => by
    rw [List.cons_append, pyReplaceDel_cons, pyReplaceDel_cons]
    by_cases hpre : pat.isPrefixOf (c :: s2) = true
    · have hpre2 : pat.isPrefixOf (c :: (s2 ++ w)) = true := by
        have := isPrefixOf_append_right pat (c :: s2) w hpre
        rwa [List.cons_append] at this
      by_cases hne : pat.isEmpty = true
      · rw [if_neg (by simp [hne]), if_neg (by simp [hne]), List.cons_append,
          pyReplaceDel_append_right pat w hw s2]
      · have hlen : pat.length ≤ (c :: s2).length := isPrefixOf_length _ _ hpre
        have hplen : 1 ≤ pat.length := by
          cases pat with
          | nil => simp at hne
          | cons _ _ => simp
        rw [if_pos (by simp [hne, hpre2]), if_pos (by simp [hne, hpre]),
          show (c :: (s2 ++ w)) = (c :: s2) ++ w from rfl,
          List.drop_append_of_le_length hlen,
          pyReplaceDel_append_right pat w hw ((c :: s2).drop pat.length)]
    · have hpre2 : pat.isPrefixOf (c :: (s2 ++ w)) = false := by
        by_contra hb
        rw [Bool.not_eq_false] at hb
        have := prefixOf_append_head pat (c :: s2) w
          (fun d hd hm => hw d (by
            cases w with
            | nil => simp at hd
            | cons x w2 =>
              rw [show (x :: w2).head? = some x from rfl, Option.some.injEq] at hd
              rw [← hd] at hm ⊢
              exact List.mem_cons_self _ _) hm)
          (by rwa [List.cons_append])
        rw [this.1] at hpre
        exact hpre rfl
      rw [if_neg (by simp [hpre2]), if_neg (by simp [hpre]), List.cons_append,
        pyReplaceDel_append_right pat w hw s2]
termination_by s => s.length
decreasing_by
  all_goals simp only [List.length_drop, List.length_cons]
  all_goals omega

/-- Deletion splits at a separator character that the pattern does not contain. -/
theorem pyReplaceDel_append_sep (pat : List Char) (nl : Char) (hn : nl ∉ pat) :
    ∀ (a b : List Char),
      pyReplaceDel pat (a ++ nl :: b) = pyReplaceDel pat a ++ nl :: pyReplaceDel pat b
  | [], b => by
    rw [List.nil_append, pyReplaceDel_cons]
    have hcond : (!pat.isEmpty && pat.isPrefixOf (nl :: b)) = false := by
      cases pat with
      | nil => rfl
      | cons p0 pat2 =>
        rw [cons_isPrefixOf_cons]
        have : (p0 == nl) = false := by
          by_contra hb
          rw [Bool.not_eq_false, beq_iff_eq] at hb
          exact hn (hb ▸ List.mem_cons_self _ _)
        simp [this]
    rw [if_neg (by simp [hcond])]
    rfl
  | c :: a2, b => by
    rw [List.cons_append, pyReplaceDel_cons, pyReplaceDel_cons]
    by_cases hpre : pat.isPrefixOf (c :: a2) = true
    · have hpre2 : pat.isPrefixOf (c :: (a2 ++ nl :: b)) = true := by
        have := isPrefixOf_append_right pat (c :: a2) (nl :: b) hpre
        rwa [List.cons_append] at this
      by_cases hne : pat.isEmpty = true
      · rw [if_neg (by simp [hne]), if_neg (by simp [hne]), List.cons_append,
          pyReplaceDel_append_sep pat nl hn a2 b]
      · have hlen : pat.length ≤ (c :: a2).length := isPrefixOf_length _ _ hpre
        have hplen : 1 ≤ pat.length := by
          cases pat with
          | nil => simp at hne
          | cons _ _ => simp
        rw [if_pos (by simp [hne, hpre2]), if_pos (by simp [hne, hpre]),
          show (c :: (a2 ++ nl :: b)) = (c :: a2) ++ nl :: b from rfl,
          List.drop_append_of_le_length hlen,
          pyReplaceDel_append_sep pat nl hn ((c :: a2).drop pat.length) b]
    · have hpre2 : pat.isPrefixOf (c :: (a2 ++ nl :: b)) = false := by
        by_contra hb
        rw [Bool.not_eq_false] at hb
        have := prefixOf_append_head pat (c :: a2) (nl :: b)
          (fun d hd hm => by
            rw [show (nl :: b).head? = some nl from rfl, Option.some.injEq] at hd
            rw [← hd] at hm
            exact hn hm)
          (by rwa [List.cons_append])
        rw [this.1] at hpre
        exact hpre rfl
      rw [if_neg (by simp [hpre2]), if_neg (by simp [hpre]), List.cons_append,
        pyReplaceDel_append_sep pat nl hn a2 b]
termination_by a _ => a.length
decreasing_by
  all_goals simp only [List.length_drop, List.length_cons]
  all_goals omega

/-- The three-backtick pattern, spelt with the named character. -/
theorem fencePat_eq : fencePat = [backtickChar, backtickChar, backtickChar] := by decide

/-- `isPrefixOf` is transitive. -/
theorem isPrefixOf_trans :
    ∀ (a b c : List Char), a.isPrefixOf b = true → b.isPrefixOf c = true →
      a.isPrefixOf c = true
  | [], _, c, _, _ => nil_isPrefixOf c
  | _ :: _, [], _, h, _ => by rw [cons_isPrefixOf_nil] at h; exact absurd h (by simp)
  | _ :: _, _ :: _, [], _, h => by rw [cons_isPrefixOf_nil] at h; exact absurd h (by simp)
  | x :: as, y :: bs, z :: cs, h1, h2 => by
    rw [cons_isPrefixOf_cons, Bool.and_eq_true, beq_iff_eq] at h1 h2 ⊢
    exact ⟨h1.1.trans h2.1, isPrefixOf_trans as bs cs h1.2 h2.2⟩

/-- An occurrence of a pattern contains an occurrence of each of its prefixes. -/
theorem hasPat_mono {p1 p2 : List Char} (hp : p1.isPrefixOf p2 = true) :
    ∀ (s : List Char), hasPat p2 s = true → hasPat p1 s = true
  | [], h => isPrefixOf_trans p1 p2 [] hp h
  | c :: rest, h => by
    rw [show hasPat p2 (c :: rest) = (p2.isPrefixOf (c :: rest) || hasPat p2 rest) from rfl,
      Bool.or_eq_true] at h
    rw [show hasPat p1 (c :: rest) = (p1.isPrefixOf (c :: rest) || hasPat p1 rest) from rfl,
      Bool.or_eq_true]
    rcases h with h | h
    · exact Or.inl (isPrefixOf_trans p1 p2 _ hp h)
    · exact Or.inr (hasPat_mono hp rest h)

/-- If deleting the fences leaves a string starting with a backtick, the string
already started with one (deletion only removes backticks at the front). -/
theorem del_tick_head (s : List Char)
    (h : [backtickChar].isPrefixOf (pyReplaceDel fencePat s) = true) :
    [backtickChar].isPrefixOf s = true := by
  cases s with
  | nil => rw [show pyReplaceDel fencePat [] = [] from rfl, cons_isPrefixOf_nil] at h
           exact absurd h (by simp)
  | cons c rest =>
    rw [pyReplaceDel_cons] at h
    by_cases hcond : (!fencePat.isEmpty && fencePat.isPrefixOf (c :: rest)) = true
    · rw [Bool.and_eq_true] at hcond
      have hq := hcond.2
      rw [fencePat_eq, cons_isPrefixOf_cons, Bool.and_eq_true] at hq
      rw [cons_isPrefixOf_cons]
      simp [hq.1, nil_isPrefixOf]
    · rw [if_neg hcond, cons_isPrefixOf_cons, Bool.and_eq_true] at h
      rw [cons_isPrefixOf_cons]
      simp [h.1, nil_isPrefixOf]

/-- As `del_tick_head`, for a leading double backtick. -/
theorem del_tick_head2 (s : List Char)
    (h : [backtickChar, backtickChar].isPrefixOf (pyReplaceDel fencePat s) = true) :
    [backtickChar, backtickChar].isPrefixOf s = true := by
  cases s with
  | nil => rw [show pyReplaceDel fencePat [] = [] from rfl, cons_isPrefixOf_nil] at h
           exact absurd h (by simp)
  | cons c rest =>
    rw [pyReplaceDel_cons] at h
    by_cases hcond : (!fencePat.isEmpty && fencePat.isPrefixOf (c :: rest)) = true
    · rw [Bool.and_eq_true] at hcond
      have hq := hcond.2
      rw [fencePat_eq, cons_isPrefixOf_cons, Bool.and_eq_true] at hq
      rw [cons_isPrefixOf_cons, Bool.and_eq_true]
      exact ⟨hq.1, isPrefixOf_trans _ _ _ (by decide) hq.2⟩
    · rw [if_neg hcond, cons_isPrefixOf_cons, Bool.and_eq_true] at h
      rw [cons_isPrefixOf_cons, Bool.and_eq_true]
      exact ⟨h.1, del_tick_head rest h.2⟩

/-- Key invariant: after `.replace("```", "")`, no three consecutive backticks
remain anywhere in the string (runs of backticks are cut below three, and
removal never makes two emitted backticks adjacent that were not already). -/
theorem hasPat_fencePat_del : ∀ (s : List Char),
    hasPat fencePat (pyReplaceDel fencePat s) = false
  | [] => by decide
  | c :: rest => by
    rw [pyReplaceDel_cons]
    have h3 : fencePat.length = 3 := by decide
    by_cases hcond : (!fencePat.isEmpty && fencePat.isPrefixOf (c :: rest)) = true
    · rw [if_pos hcond]
      exact hasPat_fencePat_del ((c :: rest).drop fencePat.length)
    · rw [if_neg hcond]
      rw [show hasPat fencePat (c :: pyReplaceDel fencePat rest) =
          (fencePat.isPrefixOf (c :: pyReplaceDel fencePat rest) ||
            hasPat fencePat (pyReplaceDel fencePat rest)) from rfl,
        Bool.or_eq_false_iff]
      refine ⟨?_, hasPat_fencePat_del rest⟩
      by_contra hb
      rw [Bool.not_eq_false, fencePat_eq, cons_isPrefixOf_cons, Bool.and_eq_true] at hb
      have h2 := del_tick_head2 rest hb.2
      apply hcond
      rw [Bool.and_eq_true]
      refine ⟨by decide, ?_⟩
      rw [fencePat_eq, cons_isPrefixOf_cons, Bool.and_eq_true]
      exact ⟨hb.1, h2⟩
termination_by s => s.length
decreasing_by
  all_goals have h3 : fencePat.length = 3 := by decide
  all_goals simp only [List.length_drop, List.length_cons]
  all_goals omega

/-- The fence patterns do not occur at all in a cleaned response: the deletion
on app.py line 85 is global, not limited to a leading/trailing fence. -/
theorem cleanResponse_no_fence (s : List Char) :
    hasPat fencePat (cleanResponse s) = false :=
  hasPat_fencePat_del (pyReplaceDel fenceJsonPat (pyStrip s))

/-- A string without three consecutive backticks contains no `"```json"` either. -/
theorem hasPat_fenceJson_eq_false {s : List Char} (h : hasPat fencePat s = false) :
    hasPat fenceJsonPat s = false := by
  by_contra hb
  rw [Bool.not_eq_false] at hb
  have := hasPat_mono (show fencePat.isPrefixOf fenceJsonPat = true by decide) s hb
  rw [h] at this
  exact absurd this (by simp)

/-- Fence stripping is idempotent: a second pass changes nothing. -/
theorem stripFences_idem (s : List Char) : stripFences (stripFences s) = stripFences s := by
  have h3 : hasPat fencePat (stripFences s) = false :=
    hasPat_fencePat_del (pyReplaceDel fenceJsonPat s)
  have h7 : hasPat fenceJsonPat (stripFences s) = false := hasPat_fenceJson_eq_false h3
  show pyReplaceDel fencePat (pyReplaceDel fenceJsonPat (stripFences s)) = _
  rw [pyReplaceDel_of_not_hasPat _ _ h7, pyReplaceDel_of_not_hasPat _ _ h3]

/-- Fence stripping is content-preserving: it is the identity on any text in
which the fence marker does not occur. -/
theorem stripFences_of_no_fence (s : List Char) (h : hasPat fencePat s = false) :
    stripFences s = s := by
  rw [stripFences, pyReplaceDel_of_not_hasPat _ _ (hasPat_fenceJson_eq_false h),
    pyReplaceDel_of_not_hasPat _ _ h]

/-! ## Dictionary lookup vs membership -/

/-- A positive membership check guarantees the lookup succeeds. -/
theorem objGet_isSome_of_any (k : List Char) :
    ∀ (kvs : List (List Char × Json)), kvs.any (fun p => p.1 == k) = true →
      ∃ v, objGet k kvs = some v
  | [], h => by simp at h
  | (k2, v) :: rest, h => by
    cases hrest : objGet k rest with
    | some r => exact ⟨r, by rw [objGet, hrest]⟩
    | none =>
      rw [List.any_cons, Bool.or_eq_true] at h
      rcases h with h1 | h2
      · exact ⟨v, by rw [objGet, hrest, if_pos h1]⟩
      · obtain ⟨r, hr⟩ := objGet_isSome_of_any k rest h2
        rw [hrest] at hr
        exact absurd hr (by simp)

/-- A successful lookup means the membership check passes. -/
theorem any_of_objGet_some (k : List Char) :
    ∀ (kvs : List (List Char × Json)) (v : Json), objGet k kvs = some v →
      kvs.any (fun p => p.1 == k) = true
  | [], v, h => by simp [objGet] at h
  | (k2, v2) :: rest, v, h => by
    rw [List.any_cons, Bool.or_eq_true]
    rw [objGet] at h
    cases hrest : objGet k rest with
    | some r => exact Or.inr (any_of_objGet_some k rest r hrest)
    | none =>
      rw [hrest] at h
      by_cases hk : (k2 == k) = true
      · exact Or.inl hk
      · rw [if_neg hk] at h
        exact absurd h (by simp)

/-! ## Button handler characterization -/

/-- Forward direction: whenever the handler displays a result, the parsed
value was an object carrying both keys, with exactly the displayed values. -/
theorem buttonHandler_showed (input resp : List Char) (l r : Json)
    (h : buttonHandler input resp = HandlerOutcome.showed l r) :
    ∃ kvs, classifyParse resp = some (Json.obj kvs) ∧
      objGet labelKey kvs = some l ∧ objGet reasonKey kvs = some r := by
  by_cases hblank : (input.isEmpty || (pyStrip input).isEmpty) = true
  · rw [buttonHandler, if_pos hblank] at h
    exact HandlerOutcome.noConfusion h
  · rw [buttonHandler, if_neg hblank] at h
    repeat' split at h
    all_goals try exact HandlerOutcome.noConfusion h
    rename_i kvs hres htr hcl hcr
    rw [show pyContainsKey labelKey (Json.obj kvs) =
        some (kvs.any (fun p => p.1 == labelKey)) from rfl, Option.some.injEq] at hcl
    rw [show pyContainsKey reasonKey (Json.obj kvs) =
        some (kvs.any (fun p => p.1 == reasonKey)) from rfl, Option.some.injEq] at hcr
    obtain ⟨vl, hvl⟩ := objGet_isSome_of_any labelKey kvs hcl
    obtain ⟨vr, hvr⟩ := objGet_isSome_of_any reasonKey kvs hcr
    rw [hvl, hvr] at h
    injection h with e1 e2
    rw [Option.getD_some] at e1
    rw [Option.getD_some] at e2
    exact ⟨kvs, hres, by rw [hvl, e1], by rw [hvr, e2]⟩

/-- Converse direction: a parsed object with both keys present is always
displayed, with no validation of the label's value. -/
theorem buttonHandler_shows (input resp : List Char) (kvs : List (List Char × Json))
    (l r : Json) (hin : (input.isEmpty || (pyStrip input).isEmpty) = false)
    (hres : classifyParse resp = some (Json.obj kvs))
    (hl : objGet labelKey kvs = some l) (hr : objGet reasonKey kvs = some r) :
    buttonHandler input resp = HandlerOutcome.showed l r := by
  have hanyl := any_of_objGet_some labelKey kvs l hl
  have hanyr := any_of_objGet_some reasonKey kvs r hr
  have hne : kvs ≠ [] := by
    intro he
    rw [he] at hl
    exact Option.noConfusion hl
  have htr : pyTruthy (Json.obj kvs) = true := by
    cases kvs with
    | nil => exact absurd rfl hne
    | cons _ _ => rfl
  simp [buttonHandler, hin, hres, htr, pyContainsKey, hanyl, hanyr, hl, hr]

/-- An object missing one of the two keys is reported as an error, never shown. -/
theorem buttonHandler_missing_key (input resp : List Char) (kvs : List (List Char × Json))
    (hin : (input.isEmpty || (pyStrip input).isEmpty) = false)
    (hres : classifyParse resp = some (Json.obj kvs))
    (hmiss : objGet labelKey kvs = none ∨ objGet reasonKey kvs = none) :
    buttonHandler input resp = HandlerOutcome.parseErrorShown := by
  have hget_none : ∀ k, objGet k kvs = none → kvs.any (fun p => p.1 == k) = false := by
    intro k hk
    by_contra hb
    rw [Bool.not_eq_false] at hb
    obtain ⟨v, hv⟩ := objGet_isSome_of_any k kvs hb
    rw [hk] at hv
    exact Option.noConfusion hv
  cases hkvs : kvs with
  | nil =>
    subst hkvs
    simp [buttonHandler, hin, hres, pyTruthy]
  | cons p2 rest =>
    have htr : pyTruthy (Json.obj kvs) = true := by rw [hkvs]; rfl
    rcases hmiss with hm | hm
    · simp [buttonHandler, hin, hres, htr, pyContainsKey, hget_none labelKey hm]
    · cases hbl : (kvs.any (fun p => p.1 == labelKey)) with
      | false => simp [buttonHandler, hin, hres, htr, pyContainsKey, hbl]
      | true => simp [buttonHandler, hin, hres, htr, pyContainsKey, hbl,
          hget_none reasonKey hm]

/-! ## Claim theorems (part 1) -/

/-- C4.  All-or-nothing result: whenever the button handler displays a success,
the parsed value was a JSON object carrying both `label` and `reason`, with
exactly the displayed values; and a parsed object missing either key is
reported through the error message, never displayed as a success. -/
theorem claim4_all_or_nothing :
    (∀ (input resp : List Char) (l r : Json),
      buttonHandler input resp = HandlerOutcome.showed l r →
        ∃ kvs, classifyParse resp = some (Json.obj kvs) ∧
          objGet labelKey kvs = some l ∧ objGet reasonKey kvs = some r) ∧
    (∀ (input resp : List Char) (kvs : List (List Char × Json)),
      (input.isEmpty || (pyStrip input).isEmpty) = false →
      classifyParse resp = some (Json.obj kvs) →
      objGet labelKey kvs = none ∨ objGet reasonKey kvs = none →
      buttonHandler input resp = HandlerOutcome.parseErrorShown) :=
  ⟨buttonHandler_showed, buttonHandler_missing_key⟩

/-- Witness for C4 at concrete inputs: a complete object is displayed as
parsed, and an object missing `reason` goes to the error branch. -/
theorem claim4_witness :
    (∃ kvs, classifyParse "\x7b\"label\":\"a\",\"reason\":\"b\"\x7d".data = some (Json.obj kvs) ∧
      objGet labelKey kvs = some (Json.str "a".data) ∧
      objGet reasonKey kvs = some (Json.str "b".data)) ∧
    buttonHandler "x".data "\x7b\"label\":\"a\"\x7d".data = HandlerOutcome.parseErrorShown :=
  ⟨claim4_all_or_nothing.1 "x".data "\x7b\"label\":\"a\",\"reason\":\"b\"\x7d".data
      (Json.str "a".data) (Json.str "b".data) rfl,
   claim4_all_or_nothing.2 "x".data "\x7b\"label\":\"a\"\x7d".data
      [(labelKey, Json.str "a".data)] rfl rfl (Or.inr rfl)⟩

/-- C5.  Permissive label pass-through: a parsed object with both keys present
is displayed as-is whatever the `label` value is (no check against the
five-label enum), and a concrete out-of-enum label is accepted end to end. -/
theorem claim5_label_passthrough :
    (∀ (input resp : List Char) (kvs : List (List Char × Json)) (l r : Json),
      (input.isEmpty || (pyStrip input).isEmpty) = false →
      classifyParse resp = some (Json.obj kvs) →
      objGet labelKey kvs = some l → objGet reasonKey kvs = some r →
      buttonHandler input resp = HandlerOutcome.showed l r) ∧
    (classify_abstract "\x7b\"label\":\"Not One Of The Five\",\"reason\":\"r\"\x7d" =
      some (Json.obj [(labelKey, Json.str "Not One Of The Five".data),
                      (reasonKey, Json.str "r".data)]) ∧
     "Not One Of The Five".data ∉ validLabels) :=
  ⟨buttonHandler_shows, rfl, by decide⟩

/-- Witness for C5: the out-of-enum label is displayed unchanged. -/
theorem claim5_witness :
    buttonHandler "abstract text".data
        "\x7b\"label\":\"Not One Of The Five\",\"reason\":\"r\"\x7d".data =
      HandlerOutcome.showed (Json.str "Not One Of The Five".data) (Json.str "r".data) :=
  claim5_label_passthrough.1 "abstract text".data
    "\x7b\"label\":\"Not One Of The Five\",\"reason\":\"r\"\x7d".data
    [(labelKey, Json.str "Not One Of The Five".data), (reasonKey, Json.str "r".data)]
    (Json.str "Not One Of The Five".data) (Json.str "r".data) rfl rfl rfl rfl

/-- C6.  Cleaning pipeline order: the cleaned string is exactly
`strip`, then `replace("```json", "")`, then `replace("```", "")`, and the
parse is applied to that composition; shown also on the spec's fenced shape. -/
theorem claim6_cleaning_pipeline :
    (∀ s : List Char,
      cleanResponse s =
        pyReplaceDel fencePat (pyReplaceDel fenceJsonPat (pyStrip s)) ∧
      classifyParse s =
        parseJsonTop (pyReplaceDel fencePat (pyReplaceDel fenceJsonPat (pyStrip s)))) ∧
    cleanResponse " ```json\n\x7b\"label\":\"x\"\x7d\n``` ".data = "\n\x7b\"label\":\"x\"\x7d\n".data :=
  ⟨fun _ => ⟨rfl, rfl⟩, rfl⟩

/-- C7.  Empty-input guard: on an empty or whitespace-only abstract the
handler warns, and its outcome does not depend on the model response at all
(no classify call is reachable). -/
theorem claim7_blank_input_guard (input : List Char)
    (h : (pyStrip input).isEmpty = true) :
    (∀ resp, buttonHandler input resp = HandlerOutcome.warned) ∧
    (∀ resp resp2, buttonHandler input resp = buttonHandler input resp2) := by
  have hguard : (input.isEmpty || (pyStrip input).isEmpty) = true := by rw [h]; simp
  exact ⟨fun resp => by rw [buttonHandler, if_pos hguard],
         fun resp resp2 => by
           rw [buttonHandler, if_pos hguard, buttonHandler, if_pos hguard]⟩

/-- Witness for C7 at a whitespace-only abstract. -/
theorem claim7_witness :
    buttonHandler " \t\n".data "\x7b\"label\":\"a\",\"reason\":\"b\"\x7d".data =
      HandlerOutcome.warned :=
  (claim7_blank_input_guard " \t\n".data (by decide)).1 _

/-- C8.  Fatal startup on missing credential: with no API key the script
halts (nothing downstream runs, in particular no handler and no classify
call), and any run that produces an outcome had a configured key. -/
theorem claim8_missing_key_halts (key : Option String) (input resp : List Char) :
    (key = none → runApp key input resp = none) ∧
    (∀ o, runApp key input resp = some o → ∃ k, key = some k) := by
  constructor
  · intro h
    subst h
    rfl
  · intro o h
    cases key with
    | none => exact Option.noConfusion h
    | some k => exact ⟨k, rfl⟩

/-- Witness for C8 at concrete configurations. -/
theorem claim8_witness :
    runApp none "x".data "\x7b\x7d".data = none ∧
    ∃ k, (some "secret" : Option String) = some k :=
  ⟨(claim8_missing_key_halts none "x".data "\x7b\x7d".data).1 rfl,
   (claim8_missing_key_halts (some "secret") "x".data "\x7b\x7d".data).2
     (buttonHandler "x".data "\x7b\x7d".data) rfl⟩

/-- C9.  Fence deletion is global: no occurrence of three backticks survives
cleaning anywhere in the text, and on a well-formed JSON response whose
`reason` value contains a fence marker the returned `reason` differs from the
field of the model's JSON. -/
theorem claim9_global_fence_deletion :
    (∀ s : List Char, hasPat fencePat (cleanResponse s) = false) ∧
    (parseJsonTop "\x7b\"label\":\"x\",\"reason\":\"see ``` fence\"\x7d".data =
      some (Json.obj [(labelKey, Json.str "x".data),
                      (reasonKey, Json.str "see ``` fence".data)]) ∧
     classify_abstract "\x7b\"label\":\"x\",\"reason\":\"see ``` fence\"\x7d" =
      some (Json.obj [(labelKey, Json.str "x".data),
                      (reasonKey, Json.str "see  fence".data)]) ∧
     ("see  fence".data : List Char) ≠ "see ``` fence".data) :=
  ⟨cleanResponse_no_fence, rfl, rfl, by decide⟩

/-- C10.  The declared `dict` return type is not enforced: the response `5`
parses to a non-object value which `classify_abstract` returns as-is, and the
handler's membership check then raises an uncaught `TypeError`. -/
theorem claim10_nondict_result_typeerror :
    classify_abstract "5" = some (Json.num (mkRat 5 1)) ∧
    (∀ kvs, Json.num (mkRat 5 1) ≠ Json.obj kvs) ∧
    buttonHandler "abstract".data "5".data = HandlerOutcome.raisedTypeError :=
  ⟨rfl, fun _ h => Json.noConfusion h, rfl⟩

/-- Counterexample to C1 as stated: a well-formed JSON object response whose
`reason` string contains three backticks is not passed through unchanged (the
backticks are deleted by the cleaning step). -/
theorem claim1_counterexample :
    parseJsonTop "\x7b\"label\":\"a\",\"reason\":\"b```c\"\x7d".data =
      some (Json.obj [(labelKey, Json.str "a".data), (reasonKey, Json.str "b```c".data)]) ∧
    classify_abstract "\x7b\"label\":\"a\",\"reason\":\"b```c\"\x7d" =
      some (Json.obj [(labelKey, Json.str "a".data), (reasonKey, Json.str "bc".data)]) ∧
    ("bc".data : List Char) ≠ "b```c".data :=
  ⟨rfl, rfl, by decide⟩

/-- Counterexample to C2 as stated: a response whose trailing whitespace is a
vertical tab (stripped by Python `str.strip()` but not JSON whitespace)
classifies successfully unfenced, but fails once fenced, because the fences
protect the vertical tab from the outer strip. -/
theorem claim2_counterexample :
    classify_abstract "\x7b\"label\":\"a\",\"reason\":\"b\"\x7d\x0b" =
      some (Json.obj [(labelKey, Json.str "a".data), (reasonKey, Json.str "b".data)]) ∧
    classifyParse (fenceWrap "\x7b\"label\":\"a\",\"reason\":\"b\"\x7d\x0b".data) = none ∧
    classifyParse (fenceWrap "\x7b\"label\":\"a\",\"reason\":\"b\"\x7d\x0b".data) ≠
      classifyParse "\x7b\"label\":\"a\",\"reason\":\"b\"\x7d\x0b".data := by
  refine ⟨rfl, rfl, ?_⟩
  intro h
  rw [show classifyParse (fenceWrap "\x7b\"label\":\"a\",\"reason\":\"b\"\x7d\x0b".data) =
      none from rfl] at h
  exact Option.noConfusion (h.trans rfl)

/-- Counterexample to C3 as stated: the spec's own fenced scenario text is not
parseable JSON as-is, yet `classify_abstract` returns a success for it (the
claim holds only of the cleaned text, not of the raw response text). -/
theorem claim3_counterexample :
    parseJsonTop " ```json\n\x7b\"label\":\"Irrelevant\",\"reason\":\"no FA link\"\x7d\n``` ".data =
      none ∧
    classify_abstract " ```json\n\x7b\"label\":\"Irrelevant\",\"reason\":\"no FA link\"\x7d\n``` " =
      some (Json.obj [(labelKey, Json.str "Irrelevant".data),
                      (reasonKey, Json.str "no FA link".data)]) :=
  ⟨rfl, rfl⟩

/-- C3 (amended).  Total error handling on the cleaned text: whenever the
cleaned response is not parseable JSON, `classify_abstract` returns the error
result (`None`), and the handler shows the error message — no exception
escapes and no partial result is produced. -/
theorem claim3_error_result_total (resp : List Char)
    (h : parseJsonTop (cleanResponse resp) = none) :
    classifyParse resp = none ∧
    (∀ input, (input.isEmpty || (pyStrip input).isEmpty) = false →
      buttonHandler input resp = HandlerOutcome.parseErrorShown) := by
  refine ⟨h, fun input hin => ?_⟩
  simp [buttonHandler, hin, show classifyParse resp = none from h]

/-- Witness for C3 on the spec's non-JSON refusal scenario. -/
theorem claim3_witness :
    classifyParse "I cannot comply with this request.".data = none ∧
    buttonHandler "x".data "I cannot comply with this request.".data =
      HandlerOutcome.parseErrorShown := by
  have h := claim3_error_result_total "I cannot comply with this request.".data rfl
  exact ⟨h.1, h.2 "x".data (by decide)⟩

/-! ## Whitespace character facts -/

/-- The four JSON whitespace characters, by cases. -/
theorem jsonWs_cases {c : Char} (h : isJsonWs c = true) :
    c = ' ' ∨ c = '\t' ∨ c = '\n' ∨ c = '\r' := by
  rw [isJsonWs, Bool.or_eq_true, Bool.or_eq_true, Bool.or_eq_true] at h
  rcases h with ((h | h) | h) | h <;> rw [beq_iff_eq] at h <;> tauto

/-- A JSON whitespace character never equals a non-whitespace character. -/
theorem beq_false_of_ws {c d : Char} (hc : isJsonWs c = true) (hd : isJsonWs d = false) :
    (c == d) = false := by
  by_contra hb
  rw [Bool.not_eq_false, beq_iff_eq] at hb
  subst hb
  rw [hc] at hd
  exact Bool.noConfusion hd

/-- Whitespace is not a hexadecimal digit. -/
theorem hexDigitVal_ws {c : Char} (h : isJsonWs c = true) : hexDigitVal c = none := by
  rcases jsonWs_cases h with rfl | rfl | rfl | rfl <;> rfl

/-- Whitespace is not one of the simple escape characters. -/
theorem escChar_ws {c : Char} (h : isJsonWs c = true) : escChar c = none := by
  rcases jsonWs_cases h with rfl | rfl | rfl | rfl <;> rfl

/-! ## Helper lemmas for the `\uXXXX` machinery -/

/-- A non-digit in the first position makes `hex4` fail. -/
theorem hex4_none1 {a : Char} (h : hexDigitVal a = none) (b c d : Char) :
    hex4 a b c d = none := by
  unfold hex4
  rw [h]

/-- A non-digit in the second position makes `hex4` fail. -/
theorem hex4_none2 {b : Char} (h : hexDigitVal b = none) (a c d : Char) :
    hex4 a b c d = none := by
  unfold hex4
  rw [h]
  cases hexDigitVal a <;> rfl

/-- A non-digit in the third position makes `hex4` fail. -/
theorem hex4_none3 {c : Char} (h : hexDigitVal c = none) (a b d : Char) :
    hex4 a b c d = none := by
  unfold hex4
  rw [h]
  cases hexDigitVal a <;> cases hexDigitVal b <;> rfl

/-- A non-digit in the fourth position makes `hex4` fail. -/
theorem hex4_none4 {d : Char} (h : hexDigitVal d = none) (a b c : Char) :
    hex4 a b c d = none := by
  unfold hex4
  rw [h]
  cases hexDigitVal a <;> cases hexDigitVal b <;> cases hexDigitVal c <;> rfl

/-- `parseU4` consumes exactly four characters. -/
theorem parseU4_some_len : ∀ {s : List Char} {n : Nat} {r : List Char},
    parseU4 s = some (n, r) → s.length = r.length + 4 := by
  intro s n r h
  cases s with
  | nil => exact Option.noConfusion h
  | cons a s1 =>
  cases s1 with
  | nil => exact Option.noConfusion h
  | cons b s2 =>
  cases s2 with
  | nil => exact Option.noConfusion h
  | cons c s3 =>
  cases s3 with
  | nil => exact Option.noConfusion h
  | cons d s4 =>
  rw [parseU4] at h
  cases h4 : hex4 a b c d with
  | none => rw [h4] at h; exact Option.noConfusion h
  | some k =>
    rw [h4] at h
    injection h with h
    injection h with _ h2
    rw [← h2]
    simp

/-- `parseLowSurr` consumes exactly six characters. -/
theorem parseLowSurr_some_len : ∀ {s : List Char} {m : Nat} {r : List Char},
    parseLowSurr s = some (m, r) → s.length = r.length + 6 := by
  intro s m r h
  cases s with
  | nil => exact Option.noConfusion h
  | cons e2 s1 =>
  cases s1 with
  | nil => exact Option.noConfusion h
  | cons u2 s2 =>
  rw [parseLowSurr] at h
  split at h
  · split at h
    · rename_i m2 r2 heq
      split at h
      · injection h with h
        injection h with _ h2
        have hlen := parseU4_some_len heq
        rw [← h2]
        simp only [List.length_cons]
        omega
      · exact Option.noConfusion h
    · exact Option.noConfusion h
  · exact Option.noConfusion h

/-- Fuel does not matter for `parseStringBodyF` once it covers the input length. -/
theorem parseStringBodyF_fuel :
    ∀ (f g : Nat) (s : List Char), s.length ≤ f → s.length ≤ g →
      parseStringBodyF f s = parseStringBodyF g s
  | f, g, [], _, _ => by cases f <;> cases g <;> rfl
  | 0, _, _ :: _, hf, _ => by simp at hf
  | _ + 1, 0, _ :: _, _, hg => by simp at hg
  | f + 1, g + 1, c :: rest, hf, hg => by
    simp only [List.length_cons] at hf hg
    simp only [parseStringBodyF]
    repeat' split
    all_goals try rfl
    · rename_i e rest2 hu xo n rest3 heq hr
      simp only [List.length_cons] at hf hg
      have hl := parseU4_some_len heq
      rw [parseStringBodyF_fuel f g rest3 (by omega) (by omega)]
    · rename_i e rest2 hu xo n rest3 heq1 hr1 hr2 xo2 m r2 heq2
      simp only [List.length_cons] at hf hg
      have hl1 := parseU4_some_len heq1
      have hl2 := parseLowSurr_some_len heq2
      rw [parseStringBodyF_fuel f g r2 (by omega) (by omega)]
    · rename_i e rest2 hu xo d heq
      simp only [List.length_cons] at hf hg
      rw [parseStringBodyF_fuel f g rest2 (by omega) (by omega)]
    · rw [parseStringBodyF_fuel f g rest (by omega) (by omega)]

/-- `mapConsStr` commutes with appending to the remainder. -/
theorem mapConsStr_map (x : Char) (o : Option (List Char × List Char)) (w : List Char) :
    (mapConsStr x o).map (fun p => (p.1, p.2 ++ w)) =
      mapConsStr x (o.map (fun p => (p.1, p.2 ++ w))) := by
  cases o with
  | none => rfl
  | some p => rfl

/-- Appending JSON whitespace after the input does not change `parseU4`
except in the remainder. -/
theorem parseU4_append_ws (w : List Char) (hw : ∀ c ∈ w, isJsonWs c = true) :
    ∀ s : List Char, parseU4 (s ++ w) = (parseU4 s).map (fun p => (p.1, p.2 ++ w)) := by
  intro s
  rcases s with _ | ⟨a, _ | ⟨b, _ | ⟨c, _ | ⟨d, r⟩⟩⟩⟩
  · show parseU4 w = _
    rcases w with _ | ⟨x, _ | ⟨y, _ | ⟨z, _ | ⟨u, w4⟩⟩⟩⟩
    · rfl
    · rfl
    · rfl
    · rfl
    · simp [parseU4, hex4_none1 (hexDigitVal_ws (hw x (by simp)))]
  · show parseU4 (a :: w) = _
    rcases w with _ | ⟨x, _ | ⟨y, _ | ⟨z, w3⟩⟩⟩
    · rfl
    · rfl
    · rfl
    · simp [parseU4, hex4_none2 (hexDigitVal_ws (hw x (by simp))) a]
  · show parseU4 (a :: b :: w) = _
    rcases w with _ | ⟨x, _ | ⟨y, w2⟩⟩
    · rfl
    · rfl
    · simp [parseU4, hex4_none3 (hexDigitVal_ws (hw x (by simp))) a b]
  · show parseU4 (a :: b :: c :: w) = _
    rcases w with _ | ⟨x, w1⟩
    · rfl
    · simp [parseU4, hex4_none4 (hexDigitVal_ws (hw x (by simp))) a b c]
  · show parseU4 (a :: b :: c :: d :: (r ++ w)) = _
    rw [parseU4, parseU4]
    cases h4 : hex4 a b c d <;> simp

/-- Appending JSON whitespace after the input does not change `parseLowSurr`
except in the remainder. -/
theorem parseLowSurr_append_ws (w : List Char) (hw : ∀ c ∈ w, isJsonWs c = true) :
    ∀ s : List Char, parseLowSurr (s ++ w) = (parseLowSurr s).map (fun p => (p.1, p.2 ++ w)) := by
  intro s
  rcases s with _ | ⟨e2, _ | ⟨u2, r⟩⟩
  · show parseLowSurr w = _
    rcases w with _ | ⟨x, _ | ⟨y, w2⟩⟩
    · rfl
    · rfl
    · simp [parseLowSurr, beq_false_of_ws (hw x (by simp)) (by decide : isJsonWs '\\' = false)]
  · show parseLowSurr (e2 :: w) = _
    rcases w with _ | ⟨y, w1⟩
    · rfl
    · simp [parseLowSurr, beq_false_of_ws (hw y (by simp)) (by decide : isJsonWs 'u' = false)]
  · show parseLowSurr (e2 :: u2 :: (r ++ w)) = _
    rw [parseLowSurr, parseLowSurr]
    by_cases hc : (e2 == '\\' && u2 == 'u') = true
    · rw [if_pos hc, if_pos hc, parseU4_append_ws w hw r]
      cases h4 : parseU4 r with
      | none => rfl
      | some p =>
        obtain ⟨m, r2⟩ := p
        by_cases hr : (56320 ≤ m && m ≤ 57343) = true <;> simp [hr]
    · rw [if_neg hc, if_neg hc]
      rfl

/-- A whitespace-only input is an unterminated string body. -/
theorem parseStringBodyF_ws_none :
    ∀ (f : Nat) (w : List Char), (∀ c ∈ w, isJsonWs c = true) →
      parseStringBodyF f w = none
  | f, [], _ => by cases f <;> rfl
  | 0, _ :: _, _ => rfl
  | f + 1, c :: w2, hw => by
    rcases jsonWs_cases (hw c (List.mem_cons_self _ _)) with rfl | rfl | rfl | rfl
    · show mapConsStr ' ' (parseStringBodyF f w2) = none
      rw [parseStringBodyF_ws_none f w2 (fun d hd => hw d (List.mem_cons_of_mem _ hd))]
      rfl
    · rfl
    · rfl
    · rfl

/-- Appending JSON whitespace after the input does not change the string-body
scan except in the remainder: a success never reaches into the whitespace, and
a failure stays a failure (the whitespace supplies neither a closing quote nor
a valid escape). -/
theorem parseStringBodyF_append_ws (w : List Char) (hw : ∀ c ∈ w, isJsonWs c = true) :
    ∀ (f : Nat) (s : List Char), s.length + w.length ≤ f →
      parseStringBodyF f (s ++ w) = (parseStringBodyF f s).map (fun p => (p.1, p.2 ++ w))
  | 0, s, hf => by
    cases s with
    | nil =>
      have hwnil : w = [] := by
        cases w with
        | nil => rfl
        | cons x xs => simp at hf
      subst hwnil
      rfl
    | cons c rest => simp at hf
  | f + 1, [], hf =>  by
    rw [List.nil_append, parseStringBodyF_ws_none (f + 1) w hw]
    rfl
  | f + 1, c :: rest, hf => by
    simp only [List.length_cons] at hf
    show parseStringBodyF (f + 1) (c :: (rest ++ w)) = _
    by_cases h1 : (c == '"') = true
    · simp [parseStringBodyF, h1]
    · by_cases h2 : (c == '\\') = true
      · cases rest with
        | nil =>
          rcases w with _ | ⟨e, w2⟩
          · simp [parseStringBodyF, h1, h2]
          · have hws := hw e (by simp)
            simp [parseStringBodyF, h1, h2,
              beq_false_of_ws hws (by decide : isJsonWs 'u' = false), escChar_ws hws]
        | cons e rest2 =>
          by_cases hu : (e == 'u') = true
          · show parseStringBodyF (f + 1) (c :: e :: (rest2 ++ w)) = _
            simp only [List.length_cons] at hf
            simp only [parseStringBodyF, h1, h2, hu, if_true, if_false,
              Bool.false_eq_true, ite_false, ite_true]
            rw [parseU4_append_ws w hw rest2]
            cases h4 : parseU4 rest2 with
            | none => rfl
            | some p =>
              obtain ⟨n, rest3⟩ := p
              have hlen4 := parseU4_some_len h4
              simp only [Option.map_some']
              by_cases hr1 : (n < 55296 || 57343 < n) = true
              · simp only [hr1, if_true, ite_true]
                rw [parseStringBodyF_append_ws w hw f rest3 (by omega)]
                exact (mapConsStr_map _ _ _).symm
              · simp only [hr1, Bool.false_eq_true, if_false, ite_false]
                by_cases hr2 : n ≤ 56319
                · simp only [hr2, if_true, ite_true]
                  rw [parseLowSurr_append_ws w hw rest3]
                  cases h6 : parseLowSurr rest3 with
                  | none => rfl
                  | some q =>
                    obtain ⟨m, rest4⟩ := q
                    have hlen6 := parseLowSurr_some_len h6
                    simp only [Option.map_some']
                    rw [parseStringBodyF_append_ws w hw f rest4 (by omega)]
                    exact (mapConsStr_map _ _ _).symm
                · simp only [hr2, if_false, ite_false]
                  rfl
          · show parseStringBodyF (f + 1) (c :: e :: (rest2 ++ w)) = _
            simp only [List.length_cons] at hf
            simp only [parseStringBodyF, h1, h2, hu, if_true, if_false,
              Bool.false_eq_true, ite_false, ite_true]
            cases he : escChar e with
            | none => rfl
            | some d =>
              rw [parseStringBodyF_append_ws w hw f rest2 (by omega)]
              exact (mapConsStr_map _ _ _).symm
      · by_cases h3 : c.toNat < 32
        · simp [parseStringBodyF, h1, h2, h3]
        · simp only [parseStringBodyF, h1, h2, h3, Bool.false_eq_true,
            if_false, ite_false]
          rw [parseStringBodyF_append_ws w hw f rest (by omega)]
          exact (mapConsStr_map _ _ _).symm

/-- The wrapper version of `parseStringBodyF_append_ws`. -/
theorem parseStringBody_append_ws (s w : List Char) (hw : ∀ c ∈ w, isJsonWs c = true) :
    parseStringBody (s ++ w) = (parseStringBody s).map (fun p => (p.1, p.2 ++ w)) := by
  rw [parseStringBody, parseStringBody, List.length_append,
    parseStringBodyF_append_ws w hw (s.length + w.length) s le_rfl,
    parseStringBodyF_fuel (s.length + w.length) s.length s (by omega) le_rfl]

/-- Whitespace is not a decimal digit. -/
theorem ws_not_digit {c : Char} (h : isJsonWs c = true) : c.isDigit = false := by
  rcases jsonWs_cases h with rfl | rfl | rfl | rfl <;> rfl

/-- The head of an all-whitespace block is whitespace. -/
theorem head_ws {w : List Char} (hw : ∀ c ∈ w, isJsonWs c = true) :
    ∀ c, w.head? = some c → isJsonWs c = true := by
  intro c hc
  cases w with
  | nil => exact Option.noConfusion hc
  | cons x xs =>
    injection hc with hc
    rw [← hc]
    exact hw x (List.mem_cons_self _ _)

/-- Digit runs do not extend into appended whitespace. -/
theorem td_digit {w : List Char} (hw : ∀ c ∈ w, isJsonWs c = true) (s : List Char) :
    (s ++ w).takeWhile Char.isDigit = s.takeWhile Char.isDigit ∧
      (s ++ w).dropWhile Char.isDigit = s.dropWhile Char.isDigit ++ w :=
  takeWhile_dropWhile_append s w (fun c hc => ws_not_digit (head_ws hw c hc))

/-- Appending JSON whitespace does not change the integer-part scan except in
the remainder. -/
theorem parseIntDigits_append_ws {w : List Char} (hw : ∀ c ∈ w, isJsonWs c = true) :
    ∀ s : List Char,
      parseIntDigits (s ++ w) = (parseIntDigits s).map (fun p => (p.1, p.2 ++ w))
  | [] => by
    cases w with
    | nil => rfl
    | cons x w2 =>
      have hx := hw x (List.mem_cons_self _ _)
      show parseIntDigits (x :: w2) = none
      simp [parseIntDigits, beq_false_of_ws hx (by decide : isJsonWs '0' = false),
        ws_not_digit hx]
  | c :: rest => by
    show parseIntDigits (c :: (rest ++ w)) = _
    by_cases h0 : (c == '0') = true
    · simp [parseIntDigits, h0]
    · by_cases hd : c.isDigit = true
      · have htd := td_digit hw rest
        simp [parseIntDigits, h0, hd, htd.1, htd.2]
      · simp [parseIntDigits, h0, hd]

/-- Appending JSON whitespace does not change the fraction-group scan except
in the remainder. -/
theorem parseFracDigits_append_ws {w : List Char} (hw : ∀ c ∈ w, isJsonWs c = true) :
    ∀ s : List Char,
      parseFracDigits (s ++ w) =
        ((parseFracDigits s).1, (parseFracDigits s).2 ++ w)
  | [] => by
    cases w with
    | nil => rfl
    | cons x w2 =>
      have hx := hw x (List.mem_cons_self _ _)
      show parseFracDigits (x :: w2) = ([], x :: w2)
      simp [parseFracDigits, beq_false_of_ws hx (by decide : isJsonWs '.' = false)]
  | d :: rest => by
    show parseFracDigits (d :: (rest ++ w)) = _
    by_cases hdot : (d == '.') = true
    · have htd := td_digit hw rest
      simp only [parseFracDigits, hdot, if_true, ite_true, htd.1, htd.2]
      cases hds : rest.takeWhile Char.isDigit with
      | nil => simp
      | cons a ds => simp
    · simp [parseFracDigits, hdot]

/-- Appending JSON whitespace does not change the exponent-group scan except
in the remainder. -/
theorem parseExpPart_append_ws {w : List Char} (hw : ∀ c ∈ w, isJsonWs c = true) :
    ∀ s : List Char,
      parseExpPart (s ++ w) = ((parseExpPart s).1, (parseExpPart s).2 ++ w)
  | [] => by
    cases w with
    | nil => rfl
    | cons x w2 =>
      have hx := hw x (List.mem_cons_self _ _)
      show parseExpPart (x :: w2) = (none, x :: w2)
      simp [parseExpPart, beq_false_of_ws hx (by decide : isJsonWs 'e' = false),
        beq_false_of_ws hx (by decide : isJsonWs 'E' = false)]
  | c :: rest => by
    show parseExpPart (c :: (rest ++ w)) = _
    by_cases he : (c == 'e' || c == 'E') = true
    · simp only [parseExpPart, he, if_true, ite_true]
      cases rest with
      | nil =>
        cases w with
        | nil => simp [expDigits]
        | cons x w2 =>
          have hx := hw x (List.mem_cons_self _ _)
          simp only [List.nil_append]
          rw [if_neg (by simp [beq_false_of_ws hx (by decide : isJsonWs '+' = false)]),
            if_neg (by simp [beq_false_of_ws hx (by decide : isJsonWs '-' = false)])]
          show expDigits c (x :: w2) (x :: w2) false = _
          have htd := td_digit hw ([] : List Char)
          simp only [List.nil_append] at htd
          simp only [expDigits]
          have : (x :: w2).takeWhile Char.isDigit = [] := by
            rw [List.takeWhile_cons, if_neg (by simp [ws_not_digit hx])]
          rw [this]
          simp [expDigits]
      | cons d r2 =>
        by_cases hp : (d == '+') = true
        · have htd := td_digit hw r2
          cases hds : r2.takeWhile Char.isDigit with
          | nil => simp [hp, expDigits, htd.1, htd.2, hds]
          | cons a ds => simp [hp, expDigits, htd.1, htd.2, hds]
        · by_cases hm : (d == '-') = true
          · have htd := td_digit hw r2
            cases hds : r2.takeWhile Char.isDigit with
            | nil => simp [hp, hm, expDigits, htd.1, htd.2, hds]
            | cons a ds => simp [hp, hm, expDigits, htd.1, htd.2, hds]
          · have htd := td_digit hw (d :: r2)
            simp only [List.cons_append] at htd
            cases hds : (d :: r2).takeWhile Char.isDigit with
            | nil => simp [hp, hm, expDigits, htd.1, htd.2, hds]
            | cons a ds => simp [hp, hm, expDigits, htd.1, htd.2, hds]
    · simp [parseExpPart, he]

/-- Appending JSON whitespace does not change an unsigned-numeral scan except
in the remainder. -/
theorem parseUNum_append_ws {w : List Char} (hw : ∀ c ∈ w, isJsonWs c = true)
    (s : List Char) :
    parseUNum (s ++ w) = (parseUNum s).map (fun p => (p.1, p.2 ++ w)) := by
  rw [parseUNum, parseUNum, parseIntDigits_append_ws hw s]
  cases hi : parseIntDigits s with
  | none => rfl
  | some p =>
    obtain ⟨ip, r1⟩ := p
    simp only [Option.map_some']
    rw [parseFracDigits_append_ws hw r1]
    rw [parseExpPart_append_ws hw (parseFracDigits r1).2]

/-- Appending JSON whitespace does not change a number-token scan except in
the remainder. -/
theorem parseNumber_append_ws {w : List Char} (hw : ∀ c ∈ w, isJsonWs c = true) :
    ∀ s : List Char,
      parseNumber (s ++ w) = (parseNumber s).map (fun p => (p.1, p.2 ++ w))
  | [] => by
    cases w with
    | nil => rfl
    | cons x w2 =>
      have hx := hw x (List.mem_cons_self _ _)
      show parseNumber (x :: w2) = none
      rw [parseNumber,
        if_neg (by simp [beq_false_of_ws hx (by decide : isJsonWs '-' = false)])]
      have : parseUNum (x :: w2) = none := by
        rw [parseUNum]
        rw [show parseIntDigits (x :: w2) = none by
          simp [parseIntDigits, beq_false_of_ws hx (by decide : isJsonWs '0' = false),
            ws_not_digit hx]]
      rw [this]
  | c :: rest => by
    show parseNumber (c :: (rest ++ w)) = _
    rw [parseNumber, parseNumber]
    by_cases hm : (c == '-') = true
    · rw [if_pos hm, if_pos hm]
      by_cases hi : "Infinity".data.isPrefixOf rest = true
      · have hlen := isPrefixOf_length _ _ hi
        rw [if_pos (by
            have := isPrefixOf_append_right "Infinity".data rest w hi
            exact this),
          if_pos hi, List.drop_append_of_le_length (by simpa using hlen)]
        rfl
      · rw [if_neg (by
            intro hb
            have hmem : ∀ d, w.head? = some d → d ∉ "Infinity".data := by
              intro d hd
              have hdws := head_ws hw d hd
              rcases jsonWs_cases hdws with rfl | rfl | rfl | rfl <;> decide
            exact hi (prefixOf_append_head _ rest w hmem hb).1),
          if_neg hi, parseUNum_append_ws hw rest]
        cases parseUNum rest with
        | none => rfl
        | some p => rfl
    · rw [if_neg hm, if_neg hm]
      have := parseUNum_append_ws hw (c :: rest)
      rw [show (c :: rest) ++ w = c :: (rest ++ w) from rfl] at this
      rw [this]
      cases parseUNum (c :: rest) with
      | none => rfl
      | some p => rfl

/-- A whitespace-headed input is not a number token. -/
theorem parseNumber_ws_cons {x : Char} (hx : isJsonWs x = true) (w2 : List Char) :
    parseNumber (x :: w2) = none := by
  rw [parseNumber,
    if_neg (by simp [beq_false_of_ws hx (by decide : isJsonWs '-' = false)])]
  rw [show parseUNum (x :: w2) = none by
    rw [parseUNum]
    rw [show parseIntDigits (x :: w2) = none by
      simp [parseIntDigits, beq_false_of_ws hx (by decide : isJsonWs '0' = false),
        ws_not_digit hx]]]

/-- The scanner rejects the empty input. -/
theorem parseValue_nil (f : Nat) : parseValue f [] = none := by cases f <;> rfl

/-- The member loop rejects the empty input. -/
theorem parseMembers_nil (f : Nat) : parseMembers f [] = none := by cases f <;> rfl

/-- A whitespace-headed input starts no JSON value. -/
theorem parseValue_ws_cons {x : Char} (hx : isJsonWs x = true) (f : Nat) (w2 : List Char) :
    parseValue f (x :: w2) = none := by
  cases f with
  | zero => rfl
  | succ f =>
    simp [parseValue,
      beq_false_of_ws hx (by decide : isJsonWs '"' = false),
      beq_false_of_ws hx (by decide : isJsonWs '{' = false),
      beq_false_of_ws hx (by decide : isJsonWs '[' = false),
      beq_false_of_ws hx (by decide : isJsonWs 't' = false),
      beq_false_of_ws hx (by decide : isJsonWs 'f' = false),
      beq_false_of_ws hx (by decide : isJsonWs 'n' = false),
      beq_false_of_ws hx (by decide : isJsonWs 'N' = false),
      beq_false_of_ws hx (by decide : isJsonWs 'I' = false),
      parseNumber_ws_cons hx w2]

/-- A whitespace-only input holds no JSON value. -/
theorem parseValue_ws_none {w : List Char} (hw : ∀ c ∈ w, isJsonWs c = true) (f : Nat) :
    parseValue f w = none := by
  cases w with
  | nil => exact parseValue_nil f
  | cons x w2 => exact parseValue_ws_cons (hw x (List.mem_cons_self _ _)) f w2

/-- Skipping whitespace through an appended all-whitespace block, empty case. -/
theorem skipWs_append_nil {w : List Char} (hw : ∀ c ∈ w, isJsonWs c = true)
    {X : List Char} (h : skipWs X = []) : skipWs (X ++ w) = [] := by
  rw [skipWs, List.dropWhile_append]
  rw [skipWs] at h
  simp [h, List.dropWhile_eq_nil_iff.mpr hw]

/-- Skipping whitespace through an appended block, nonempty case. -/
theorem skipWs_append_cons {w X : List Char} {c : Char} {r : List Char}
    (h : skipWs X = c :: r) : skipWs (X ++ w) = c :: (r ++ w) := by
  rw [skipWs, dropWhile_append_of_ne_nil X w (by rw [← skipWs]; simp [h]), ← skipWs, h]
  rfl

/-- A fixed token is a prefix of a whitespace-extended input iff it already is
one of the unextended input (tokens contain no whitespace). -/
theorem isPrefixOf_append_ws {w : List Char} (hw : ∀ c ∈ w, isJsonWs c = true)
    (tok rest : List Char) (htok : ∀ c ∈ tok, isJsonWs c = false) :
    tok.isPrefixOf (rest ++ w) = tok.isPrefixOf rest := by
  by_cases h : tok.isPrefixOf rest = true
  · rw [h, isPrefixOf_append_right tok rest w h]
  · rw [Bool.not_eq_true] at h
    rw [h]
    cases hb : tok.isPrefixOf (rest ++ w) with
    | false => rfl
    | true =>
      have := prefixOf_append_head tok rest w
        (fun c hc hm => by
          have h1 := head_ws hw c hc
          have h2 := htok c hm
          rw [h1] at h2
          exact Bool.noConfusion h2) hb
      rw [this.1] at h
      exact Bool.noConfusion h

/-- The element loop rejects the empty input. -/
theorem parseElems_nil (f : Nat) : parseElems f [] = none := by
  cases f with
  | zero => rfl
  | succ g =>
    show (match parseValue g [] with
      | none => none
      | some (v, r1) =>
        match skipWs r1 with
        | [] => none
        | c2 :: r2 =>
          if c2 == ',' then
            match parseElems g (skipWs r2) with
            | some (es, r3) => some (v :: es, r3)
            | none => none
          else if c2 == ']' then some ([v], r2)
          else none) = none
    rw [parseValue_nil g]

mutual

/-- Appending JSON whitespace after the input does not change the value
scanner except in the remainder. -/
theorem parseValue_append_ws (w : List Char) (hw : ∀ c ∈ w, isJsonWs c = true) :
    ∀ (f : Nat) (s : List Char),
      parseValue f (s ++ w) = (parseValue f s).map (fun p => (p.1, p.2 ++ w))
  | 0, _ => rfl
  | f + 1, [] => by
    rw [List.nil_append, parseValue_ws_none hw (f + 1)]
    rfl
  | f + 1, c :: rest => by
    show parseValue (f + 1) (c :: (rest ++ w)) = _
    by_cases h1 : (c == '"') = true
    · simp only [parseValue, h1, ite_true]
      rw [parseStringBody_append_ws rest w hw]
      cases hs : parseStringBody rest with
      | none => rfl
      | some p => simp
    · by_cases h2 : (c == '{') = true
      · simp only [parseValue, h1, h2, Bool.false_eq_true, ite_false, ite_true]
        cases hsw : skipWs rest with
        | nil => rw [skipWs_append_nil hw hsw]; rfl
        | cons c1 r2 =>
          rw [skipWs_append_cons hsw]
          by_cases hb : (c1 == '}') = true
          · simp [hb]
          · simp only [hb, Bool.false_eq_true, ite_false]
            rw [show c1 :: (r2 ++ w) = (c1 :: r2) ++ w from rfl,
              parseMembers_append_ws w hw f (c1 :: r2)]
            cases parseMembers f (c1 :: r2) with
            | none => rfl
            | some p => simp
      · by_cases h3 : (c == '[') = true
        · simp only [parseValue, h1, h2, h3, Bool.false_eq_true, ite_false, ite_true]
          cases hsw : skipWs rest with
          | nil => rw [skipWs_append_nil hw hsw]; rfl
          | cons c1 r2 =>
            rw [skipWs_append_cons hsw]
            by_cases hb : (c1 == ']') = true
            · simp [hb]
            · simp only [hb, Bool.false_eq_true, ite_false]
              rw [show c1 :: (r2 ++ w) = (c1 :: r2) ++ w from rfl,
                parseElems_append_ws w hw f (c1 :: r2)]
              cases parseElems f (c1 :: r2) with
              | none => rfl
              | some p => simp
        · by_cases h4 : (c == 't') = true
          · simp only [parseValue, h1, h2, h3, h4, Bool.false_eq_true, ite_false,
              ite_true]
            rw [isPrefixOf_append_ws hw "rue".data rest (by decide)]
            by_cases hp : "rue".data.isPrefixOf rest = true
            · have hlen := isPrefixOf_length _ _ hp
              simp only [hp, ite_true]
              rw [List.drop_append_of_le_length (by simpa using hlen)]
              rfl
            · simp [hp]
          · by_cases h5 : (c == 'f') = true
            · simp only [parseValue, h1, h2, h3, h4, h5, Bool.false_eq_true,
                ite_false, ite_true]
              rw [isPrefixOf_append_ws hw "alse".data rest (by decide)]
              by_cases hp : "alse".data.isPrefixOf rest = true
              · have hlen := isPrefixOf_length _ _ hp
                simp only [hp, ite_true]
                rw [List.drop_append_of_le_length (by simpa using hlen)]
                rfl
              · simp [hp]
            · by_cases h6 : (c == 'n') = true
              · simp only [parseValue, h1, h2, h3, h4, h5, h6, Bool.false_eq_true,
                  ite_false, ite_true]
                rw [isPrefixOf_append_ws hw "ull".data rest (by decide)]
                by_cases hp : "ull".data.isPrefixOf rest = true
                · have hlen := isPrefixOf_length _ _ hp
                  simp only [hp, ite_true]
                  rw [List.drop_append_of_le_length (by simpa using hlen)]
                  rfl
                · simp [hp]
              · by_cases h7 : (c == 'N') = true
                · simp only [parseValue, h1, h2, h3, h4, h5, h6, h7,
                    Bool.false_eq_true, ite_false, ite_true]
                  rw [isPrefixOf_append_ws hw "aN".data rest (by decide)]
                  by_cases hp : "aN".data.isPrefixOf rest = true
                  · have hlen := isPrefixOf_length _ _ hp
                    simp only [hp, ite_true]
                    rw [List.drop_append_of_le_length (by simpa using hlen)]
                    rfl
                  · simp [hp]
                · by_cases h8 : (c == 'I') = true
                  · simp only [parseValue, h1, h2, h3, h4, h5, h6, h7, h8,
                      Bool.false_eq_true, ite_false, ite_true]
                    rw [isPrefixOf_append_ws hw "nfinity".data rest (by decide)]
                    by_cases hp : "nfinity".data.isPrefixOf rest = true
                    · have hlen := isPrefixOf_length _ _ hp
                      simp only [hp, ite_true]
                      rw [List.drop_append_of_le_length (by simpa using hlen)]
                      rfl
                    · simp [hp]
                  · simp only [parseValue, h1, h2, h3, h4, h5, h6, h7, h8,
                      Bool.false_eq_true, ite_false]
                    rw [show c :: (rest ++ w) = (c :: rest) ++ w from rfl,
                      parseNumber_append_ws hw (c :: rest)]

/-- Appending JSON whitespace after the input does not change the object
member loop except in the remainder. -/
theorem parseMembers_append_ws (w : List Char) (hw : ∀ c ∈ w, isJsonWs c = true) :
    ∀ (f : Nat) (s : List Char),
      parseMembers f (s ++ w) = (parseMembers f s).map (fun p => (p.1, p.2 ++ w))
  | 0, _ => rfl
  | f + 1, [] => by
    rw [List.nil_append, parseMembers_nil (f + 1)]
    cases w with
    | nil => rfl
    | cons x w2 =>
      simp [parseMembers,
        beq_false_of_ws (hw x (List.mem_cons_self _ _)) (by decide : isJsonWs '"' = false)]
  | f + 1, c :: rest => by
    show parseMembers (f + 1) (c :: (rest ++ w)) = _
    by_cases hq : (c == '"') = true
    · simp only [parseMembers, hq, ite_true]
      rw [parseStringBody_append_ws rest w hw]
      cases hs : parseStringBody rest with
      | none => rfl
      | some p =>
        obtain ⟨key, r1⟩ := p
        simp only [Option.map_some']
        cases hsw : skipWs r1 with
        | nil => rw [skipWs_append_nil hw hsw]; rfl
        | cons c2 r2 =>
          rw [skipWs_append_cons hsw]
          by_cases hc2 : (c2 == ':') = true
          · simp only [hc2, ite_true]
            cases hsw2 : skipWs r2 with
            | nil =>
              rw [skipWs_append_nil hw hsw2, parseValue_nil f]
              rfl
            | cons d r2x =>
              rw [skipWs_append_cons hsw2,
                show d :: (r2x ++ w) = (d :: r2x) ++ w from rfl,
                parseValue_append_ws w hw f (d :: r2x)]
              cases hv : parseValue f (d :: r2x) with
              | none => rfl
              | some q =>
                obtain ⟨v, r3⟩ := q
                simp only [Option.map_some']
                cases hsw3 : skipWs r3 with
                | nil => rw [skipWs_append_nil hw hsw3]; rfl
                | cons c3 r4 =>
                  rw [skipWs_append_cons hsw3]
                  by_cases hc3 : (c3 == ',') = true
                  · simp only [hc3, ite_true]
                    cases hsw4 : skipWs r4 with
                    | nil =>
                      rw [skipWs_append_nil hw hsw4, parseMembers_nil f]
                      rfl
                    | cons e r5 =>
                      rw [skipWs_append_cons hsw4,
                        show e :: (r5 ++ w) = (e :: r5) ++ w from rfl,
                        parseMembers_append_ws w hw f (e :: r5)]
                      cases parseMembers f (e :: r5) with
                      | none => rfl
                      | some pm => simp
                  · by_cases hc3b : (c3 == '}') = true
                    · simp [hc3, hc3b]
                    · simp [hc3, hc3b]
          · simp [hc2]
    · simp [parseMembers, hq]

/-- Appending JSON whitespace after the input does not change the array
element loop except in the remainder. -/
theorem parseElems_append_ws (w : List Char) (hw : ∀ c ∈ w, isJsonWs c = true) :
    ∀ (f : Nat) (s : List Char),
      parseElems f (s ++ w) = (parseElems f s).map (fun p => (p.1, p.2 ++ w))
  | 0, _ => rfl
  | f + 1, s => by
    show parseElems (f + 1) (s ++ w) = _
    simp only [parseElems]
    rw [parseValue_append_ws w hw f s]
    cases hv : parseValue f s with
    | none => rfl
    | some p =>
      obtain ⟨v, r1⟩ := p
      simp only [Option.map_some']
      cases hsw : skipWs r1 with
      | nil => rw [skipWs_append_nil hw hsw]; rfl
      | cons c2 r2 =>
        rw [skipWs_append_cons hsw]
        by_cases hc2 : (c2 == ',') = true
        · simp only [hc2, ite_true]
          cases hsw2 : skipWs r2 with
          | nil =>
            rw [skipWs_append_nil hw hsw2, parseElems_nil f]
            rfl
          | cons d r2x =>
            rw [skipWs_append_cons hsw2,
              show d :: (r2x ++ w) = (d :: r2x) ++ w from rfl,
              parseElems_append_ws w hw f (d :: r2x)]
            cases parseElems f (d :: r2x) with
            | none => rfl
            | some pe => simp
        · by_cases hc2b : (c2 == ']') = true
          · simp [hc2, hc2b]
          · simp [hc2, hc2b]

end

/-- A successful string-body scan consumes at least the closing quote. -/
theorem parseStringBodyF_some_len :
    ∀ (f : Nat) (s : List Char) (cs r : List Char),
      parseStringBodyF f s = some (cs, r) → r.length < s.length
  | 0, _, _, _, h => Option.noConfusion h
  | _ + 1, [], _, _, h => Option.noConfusion h
  | f + 1, c :: rest, cs, r, h => by
    simp only [parseStringBodyF] at h
    repeat' split at h
    all_goals try exact Option.noConfusion h
    · injection h with h
      injection h with _ h2
      rw [← h2]
      simp
    · rename_i e rest2 hu xo n rest3 heq hr
      rw [mapConsStr] at h
      cases hin : parseStringBodyF f rest3 with
      | none => rw [hin] at h; exact Option.noConfusion h
      | some p =>
        rw [hin] at h
        injection h with h
        injection h with _ h2
        have := parseStringBodyF_some_len f rest3 p.1 p.2 (by rw [hin])
        have hl4 := parseU4_some_len heq
        rw [← h2]
        simp only [List.length_cons]
        omega
    · rename_i e rest2 hu xo n rest3 heq1 hr1 hr2 xo2 m r2 heq2
      rw [mapConsStr] at h
      cases hin : parseStringBodyF f r2 with
      | none => rw [hin] at h; exact Option.noConfusion h
      | some p =>
        rw [hin] at h
        injection h with h
        injection h with _ h2
        have := parseStringBodyF_some_len f r2 p.1 p.2 (by rw [hin])
        have hl4 := parseU4_some_len heq1
        have hl6 := parseLowSurr_some_len heq2
        rw [← h2]
        simp only [List.length_cons]
        omega
    · rename_i e rest2 hu xo d heq
      rw [mapConsStr] at h
      cases hin : parseStringBodyF f rest2 with
      | none => rw [hin] at h; exact Option.noConfusion h
      | some p =>
        rw [hin] at h
        injection h with h
        injection h with _ h2
        have := parseStringBodyF_some_len f rest2 p.1 p.2 (by rw [hin])
        rw [← h2]
        simp only [List.length_cons]
        omega
    · rw [mapConsStr] at h
      cases hin : parseStringBodyF f rest with
      | none => rw [hin] at h; exact Option.noConfusion h
      | some p =>
        rw [hin] at h
        injection h with h
        injection h with _ h2
        have := parseStringBodyF_some_len f rest p.1 p.2 (by rw [hin])
        rw [← h2]
        simp only [List.length_cons]
        omega

/-- Wrapper version of the consumption bound. -/
theorem parseStringBody_some_len {s cs r : List Char}
    (h : parseStringBody s = some (cs, r)) : r.length < s.length :=
  parseStringBodyF_some_len s.length s cs r h

/-- Dropping a while-prefix never lengthens a list. -/
theorem len_dropWhile_le (p : Char → Bool) (l : List Char) :
    (l.dropWhile p).length ≤ l.length :=
  (List.dropWhile_sublist p).length_le

/-- A successful integer-part match consumes at least one character. -/
theorem parseIntDigits_some_len {s : List Char} {ip : Nat} {r : List Char}
    (h : parseIntDigits s = some (ip, r)) : r.length < s.length := by
  cases s with
  | nil => exact Option.noConfusion h
  | cons c rest =>
    rw [parseIntDigits] at h
    by_cases h0 : c == '0'
    · rw [if_pos h0] at h
      injection h with h
      injection h with _ h2
      rw [← h2]
      simp
    · rw [if_neg h0] at h
      by_cases hd : c.isDigit
      · rw [if_pos hd] at h
        injection h with h
        injection h with _ h2
        rw [← h2]
        have := len_dropWhile_le Char.isDigit rest
        simp only [List.length_cons]
        omega
      · rw [if_neg hd] at h
        exact Option.noConfusion h

/-- The fraction group never consumes more than the input. -/
theorem parseFracDigits_len (s : List Char) :
    (parseFracDigits s).2.length ≤ s.length := by
  cases s with
  | nil => simp [parseFracDigits]
  | cons d rest =>
    rw [parseFracDigits]
    by_cases hd : d == '.'
    · rw [if_pos hd]
      cases htw : rest.takeWhile Char.isDigit with
      | nil => simp
      | cons x xs =>
        have := len_dropWhile_le Char.isDigit rest
        simp only [List.length_cons]
        omega
    · rw [if_neg hd]

/-- The exponent group never consumes more than the input. -/
theorem parseExpPart_len (s : List Char) :
    (parseExpPart s).2.length ≤ s.length := by
  cases s with
  | nil => simp [parseExpPart]
  | cons c rest =>
    cases rest with
    | nil =>
      rw [show parseExpPart (c :: ([] : List Char)) =
            if (c == 'e' || c == 'E') = true then (none, c :: ([] : List Char))
            else (none, c :: ([] : List Char)) from rfl]
      split <;> simp
    | cons d r2 =>
      rw [show parseExpPart (c :: (d :: r2)) =
            if (c == 'e' || c == 'E') = true then
              (if (d == '+') = true then expDigits c (d :: r2) r2 false
               else if (d == '-') = true then expDigits c (d :: r2) r2 true
               else expDigits c (d :: r2) (d :: r2) false)
            else (none, c :: (d :: r2)) from rfl]
      by_cases he : c == 'e' || c == 'E'
      · rw [if_pos he]
        have hlen2 : ∀ b : Bool, (expDigits c (d :: r2) r2 b).2.length ≤ (c :: (d :: r2)).length := by
          intro b
          rw [expDigits]
          cases r2.takeWhile Char.isDigit with
          | nil => simp
          | cons x xs =>
            have := len_dropWhile_le Char.isDigit r2
            simp only [List.length_cons]
            omega
        have hlen3 : (expDigits c (d :: r2) (d :: r2) false).2.length ≤ (c :: (d :: r2)).length := by
          rw [expDigits]
          cases (d :: r2).takeWhile Char.isDigit with
          | nil => simp
          | cons x xs =>
            have := len_dropWhile_le Char.isDigit (d :: r2)
            simp only [List.length_cons] at *
            omega
        by_cases hp : d == '+'
        · rw [if_pos hp]; exact hlen2 false
        · rw [if_neg hp]
          by_cases hm : d == '-'
          · rw [if_pos hm]; exact hlen2 true
          · rw [if_neg hm]; exact hlen3
      · rw [if_neg he]

/-- A successful unsigned-number match consumes at least one character. -/
theorem parseUNum_some_len {s : List Char} {q : ℚ} {r : List Char}
    (h : parseUNum s = some (q, r)) : r.length < s.length := by
  rw [parseUNum] at h
  repeat' split at h
  all_goals try exact Option.noConfusion h
  rename_i xo ip r1 hInt fp fds r2 hFrac ep ex r3 hExp
  have h1 := parseIntDigits_some_len hInt
  have h2 : r2.length ≤ r1.length := by
    have := parseFracDigits_len r1
    rw [hFrac] at this
    exact this
  have h3 : r3.length ≤ r2.length := by
    have := parseExpPart_len r2
    rw [hExp] at this
    exact this
  injection h with h
  injection h with _ hr
  subst hr
  omega

/-- A successful number-token match consumes at least one character. -/
theorem parseNumber_some_len {s : List Char} {j : Json} {r : List Char}
    (h : parseNumber s = some (j, r)) : r.length < s.length := by
  cases s with
  | nil => exact Option.noConfusion h
  | cons c rest =>
    rw [parseNumber] at h
    by_cases hm : c == '-'
    · rw [if_pos hm] at h
      by_cases hinf : "Infinity".data.isPrefixOf rest
      · rw [if_pos hinf] at h
        injection h with h
        injection h with _ hr
        rw [← hr]
        have := List.length_drop 8 rest
        simp only [List.length_cons]
        omega
      · rw [if_neg hinf] at h
        cases hu : parseUNum rest with
        | none => rw [hu] at h; exact Option.noConfusion h
        | some p =>
          rw [hu] at h
          have := parseUNum_some_len (q := p.1) (r := p.2) (by rw [hu])
          injection h with h
          injection h with _ hr
          rw [← hr]
          simp only [List.length_cons]
          omega
    · rw [if_neg hm] at h
      cases hu : parseUNum (c :: rest) with
      | none => rw [hu] at h; exact Option.noConfusion h
      | some p =>
        rw [hu] at h
        have := parseUNum_some_len (q := p.1) (r := p.2) (by rw [hu])
        injection h with h
        injection h with _ hr
        rw [← hr]
        exact this

mutual

/-- A successful value scan consumes at least one character. -/
theorem parseValue_some_len :
    ∀ (f : Nat) (s : List Char) (v : Json) (r : List Char),
      parseValue f s = some (v, r) → r.length < s.length
  | 0, _, _, _, h => Option.noConfusion h
  | _ + 1, [], _, _, h => Option.noConfusion h
  | f + 1, c :: rest, v, r, h => by
    simp only [parseValue] at h
    by_cases h1 : (c == '"') = true
    · simp only [h1, ite_true] at h
      split at h
      · rename_i cs r0 heq
        injection h with h
        injection h with hv hr
        subst hr
        have := parseStringBody_some_len heq
        simp only [List.length_cons]
        omega
      · exact Option.noConfusion h
    · simp only [h1, Bool.false_eq_true, ite_false] at h
      by_cases h2 : (c == '{') = true
      · simp only [h2, ite_true] at h
        split at h
        · exact Option.noConfusion h
        · rename_i c1 r2 hsw
          have hlen : (skipWs rest).length ≤ rest.length := len_dropWhile_le _ _
          rw [hsw] at hlen
          by_cases hb : (c1 == '}') = true
          · simp only [hb, ite_true] at h
            injection h with h
            injection h with hv hr
            subst hr
            simp only [List.length_cons] at *
            omega
          · simp only [hb, Bool.false_eq_true, ite_false] at h
            split at h
            · rename_i ms r3 hm
              injection h with h
              injection h with hv hr
              subst hr
              have := parseMembers_some_len f (c1 :: r2) ms r3 hm
              simp only [List.length_cons] at *
              omega
            · exact Option.noConfusion h
      · simp only [h2, Bool.false_eq_true, ite_false] at h
        by_cases h3 : (c == '[') = true
        · simp only [h3, ite_true] at h
          split at h
          · exact Option.noConfusion h
          · rename_i c1 r2 hsw
            have hlen : (skipWs rest).length ≤ rest.length := len_dropWhile_le _ _
            rw [hsw] at hlen
            by_cases hb : (c1 == ']') = true
            · simp only [hb, ite_true] at h
              injection h with h
              injection h with hv hr
              subst hr
              simp only [List.length_cons] at *
              omega
            · simp only [hb, Bool.false_eq_true, ite_false] at h
              split at h
              · rename_i es r3 he
                injection h with h
                injection h with hv hr
                subst hr
                have := parseElems_some_len f (c1 :: r2) es r3 he
                simp only [List.length_cons] at *
                omega
              · exact Option.noConfusion h
        · simp only [h3, Bool.false_eq_true, ite_false] at h
          by_cases h4 : (c == 't') = true
          · simp only [h4, ite_true] at h
            by_cases hp : "rue".data.isPrefixOf rest = true
            · simp only [hp, ite_true] at h
              injection h with h
              injection h with hv hr
              subst hr
              have := List.length_drop 3 rest
              simp only [List.length_cons]
              omega
            · simp only [hp, Bool.false_eq_true, ite_false] at h
              exact Option.noConfusion h
          · simp only [h4, Bool.false_eq_true, ite_false] at h
            by_cases h5 : (c == 'f') = true
            · simp only [h5, ite_true] at h
              by_cases hp : "alse".data.isPrefixOf rest = true
              · simp only [hp, ite_true] at h
                injection h with h
                injection h with hv hr
                subst hr
                have := List.length_drop 4 rest
                simp only [List.length_cons]
                omega
              · simp only [hp, Bool.false_eq_true, ite_false] at h
                exact Option.noConfusion h
            · simp only [h5, Bool.false_eq_true, ite_false] at h
              by_cases h6 : (c == 'n') = true
              · simp only [h6, ite_true] at h
                by_cases hp : "ull".data.isPrefixOf rest = true
                · simp only [hp, ite_true] at h
                  injection h with h
                  injection h with hv hr
                  subst hr
                  have := List.length_drop 3 rest
                  simp only [List.length_cons]
                  omega
                · simp only [hp, Bool.false_eq_true, ite_false] at h
                  exact Option.noConfusion h
              · simp only [h6, Bool.false_eq_true, ite_false] at h
                by_cases h7 : (c == 'N') = true
                · simp only [h7, ite_true] at h
                  by_cases hp : "aN".data.isPrefixOf rest = true
                  · simp only [hp, ite_true] at h
                    injection h with h
                    injection h with hv hr
                    subst hr
                    have := List.length_drop 2 rest
                    simp only [List.length_cons]
                    omega
                  · simp only [hp, Bool.false_eq_true, ite_false] at h
                    exact Option.noConfusion h
                · simp only [h7, Bool.false_eq_true, ite_false] at h
                  by_cases h8 : (c == 'I') = true
                  · simp only [h8, ite_true] at h
                    by_cases hp : "nfinity".data.isPrefixOf rest = true
                    · simp only [hp, ite_true] at h
                      injection h with h
                      injection h with hv hr
                      subst hr
                      have := List.length_drop 7 rest
                      simp only [List.length_cons]
                      omega
                    · simp only [hp, Bool.false_eq_true, ite_false] at h
                      exact Option.noConfusion h
                  · simp only [h8, Bool.false_eq_true, ite_false] at h
                    exact parseNumber_some_len h

/-- A successful member-loop scan consumes at least one character. -/
theorem parseMembers_some_len :
    ∀ (f : Nat) (s : List Char) (ms : List (List Char × Json)) (r : List Char),
      parseMembers f s = some (ms, r) → r.length < s.length
  | 0, _, _, _, h => Option.noConfusion h
  | _ + 1, [], _, _, h => Option.noConfusion h
  | f + 1, c :: rest, ms, r, h => by
    simp only [parseMembers] at h
    by_cases hq : (c == '"') = true
    · simp only [hq, ite_true] at h
      split at h
      · exact Option.noConfusion h
      · rename_i key r1 hkey
        have hk := parseStringBody_some_len hkey
        split at h
        · exact Option.noConfusion h
        · rename_i c2 r2 hsw1
          have hlen1 : (skipWs r1).length ≤ r1.length := len_dropWhile_le _ _
          rw [hsw1] at hlen1
          by_cases hc2 : (c2 == ':') = true
          · simp only [hc2, ite_true] at h
            split at h
            · exact Option.noConfusion h
            · rename_i v r3 hv
              have hvl := parseValue_some_len f (skipWs r2) v r3 hv
              have hlen2 : (skipWs r2).length ≤ r2.length := len_dropWhile_le _ _
              split at h
              · exact Option.noConfusion h
              · rename_i c3 r4 hsw3
                have hlen3 : (skipWs r3).length ≤ r3.length := len_dropWhile_le _ _
                rw [hsw3] at hlen3
                by_cases hc3 : (c3 == ',') = true
                · simp only [hc3, ite_true] at h
                  split at h
                  · rename_i ms2 r5 hm
                    injection h with h
                    injection h with _ hr
                    subst hr
                    have := parseMembers_some_len f (skipWs r4) ms2 r5 hm
                    have hlen4 : (skipWs r4).length ≤ r4.length := len_dropWhile_le _ _
                    simp only [List.length_cons] at *
                    omega
                  · exact Option.noConfusion h
                · simp only [hc3, Bool.false_eq_true, ite_false] at h
                  by_cases hc3b : (c3 == '}') = true
                  · simp only [hc3b, ite_true] at h
                    injection h with h
                    injection h with _ hr
                    subst hr
                    simp only [List.length_cons] at *
                    omega
                  · simp only [hc3b, Bool.false_eq_true, ite_false] at h
                    exact Option.noConfusion h
          · simp only [hc2, Bool.false_eq_true, ite_false] at h
            exact Option.noConfusion h
    · simp only [hq, Bool.false_eq_true, ite_false] at h
      exact Option.noConfusion h

/-- A successful element-loop scan consumes at least one character. -/
theorem parseElems_some_len :
    ∀ (f : Nat) (s : List Char) (es : List Json) (r : List Char),
      parseElems f s = some (es, r) → r.length < s.length
  | 0, _, _, _, h => Option.noConfusion h
  | f + 1, s, es, r, h => by
    simp only [parseElems] at h
    split at h
    · exact Option.noConfusion h
    · rename_i v r1 hv
      have hvl := parseValue_some_len f s v r1 hv
      split at h
      · exact Option.noConfusion h
      · rename_i c2 r2 hsw
        have hlen1 : (skipWs r1).length ≤ r1.length := len_dropWhile_le _ _
        rw [hsw] at hlen1
        by_cases hc2 : (c2 == ',') = true
        · simp only [hc2, ite_true] at h
          split at h
          · rename_i es2 r3 he
            injection h with h
            injection h with _ hr
            subst hr
            have := parseElems_some_len f (skipWs r2) es2 r3 he
            have hlen2 : (skipWs r2).length ≤ r2.length := len_dropWhile_le _ _
            simp only [List.length_cons] at *
            omega
          · exact Option.noConfusion h
        · simp only [hc2, Bool.false_eq_true, ite_false] at h
          by_cases hc2b : (c2 == ']') = true
          · simp only [hc2b, ite_true] at h
            injection h with h
            injection h with _ hr
            subst hr
            simp only [List.length_cons] at *
            omega
          · simp only [hc2b, Bool.false_eq_true, ite_false] at h
            exact Option.noConfusion h

end

/-- One unfolding of the member loop, phrased through the continuations. -/
theorem parseMembers_succ (f : Nat) (c : Char) (rest : List Char) :
    parseMembers (f + 1) (c :: rest) =
      if (c == '"') = true then
        match parseStringBody rest with
        | none => none
        | some (key, r1) => membersAfterKey f key r1
      else none := rfl

/-- One unfolding of the element loop, phrased through the continuation. -/
theorem parseElems_succ (f : Nat) (s : List Char) :
    parseElems (f + 1) s =
      match parseValue f s with
      | none => none
      | some (v, r1) => elemsAfterValue f v r1 := rfl

mutual

/-- Above the `3 * length + 3` threshold the exact fuel value is irrelevant
to the value scanner. -/
theorem parseValue_fuel :
    ∀ (f1 f2 : Nat) (s : List Char),
      3 * s.length + 3 ≤ f1 → 3 * s.length + 3 ≤ f2 →
      parseValue f1 s = parseValue f2 s
  | 0, _, _, hf1, _ => absurd hf1 (by omega)
  | _ + 1, 0, _, _, hf2 => absurd hf2 (by omega)
  | f1 + 1, f2 + 1, s, hf1, hf2 => by
    cases s with
    | nil => rfl
    | cons c rest =>
      simp only [List.length_cons] at hf1 hf2
      by_cases h1 : (c == '"') = true
      · simp only [parseValue, h1, ite_true]
      · by_cases h2 : (c == '{') = true
        · simp only [parseValue, h1, h2, Bool.false_eq_true, ite_false, ite_true]
          cases hsw : skipWs rest with
          | nil => rfl
          | cons c1 r2 =>
            have hsl : (skipWs rest).length ≤ rest.length := len_dropWhile_le _ _
            rw [hsw] at hsl
            simp only [List.length_cons] at hsl
            by_cases hb : (c1 == '}') = true
            · simp [hb]
            · simp only [hb, Bool.false_eq_true, ite_false]
              rw [parseMembers_fuel f1 f2 (c1 :: r2)
                (by simp only [List.length_cons]; omega)
                (by simp only [List.length_cons]; omega)]
        · by_cases h3 : (c == '[') = true
          · simp only [parseValue, h1, h2, h3, Bool.false_eq_true, ite_false, ite_true]
            cases hsw : skipWs rest with
            | nil => rfl
            | cons c1 r2 =>
              have hsl : (skipWs rest).length ≤ rest.length := len_dropWhile_le _ _
              rw [hsw] at hsl
              simp only [List.length_cons] at hsl
              by_cases hb : (c1 == ']') = true
              · simp [hb]
              · simp only [hb, Bool.false_eq_true, ite_false]
                rw [parseElems_fuel f1 f2 (c1 :: r2)
                  (by simp only [List.length_cons]; omega)
                  (by simp only [List.length_cons]; omega)]
          · simp only [parseValue, h1, h2, h3, Bool.false_eq_true, ite_false]

/-- Above the `3 * length + 3` threshold the exact fuel value is irrelevant
to the member loop. -/
theorem parseMembers_fuel :
    ∀ (f1 f2 : Nat) (s : List Char),
      3 * s.length + 3 ≤ f1 → 3 * s.length + 3 ≤ f2 →
      parseMembers f1 s = parseMembers f2 s
  | 0, _, _, hf1, _ => absurd hf1 (by omega)
  | _ + 1, 0, _, _, hf2 => absurd hf2 (by omega)
  | f1 + 1, f2 + 1, s, hf1, hf2 => by
    cases s with
    | nil => rfl
    | cons c rest =>
      simp only [List.length_cons] at hf1 hf2
      rw [parseMembers_succ f1 c rest, parseMembers_succ f2 c rest]
      by_cases hq : (c == '"') = true
      · simp only [hq, ite_true]
        cases hkey : parseStringBody rest with
        | none => rfl
        | some p =>
          obtain ⟨key, r1⟩ := p
          have hkl : r1.length < rest.length := parseStringBody_some_len hkey
          show membersAfterKey f1 key r1 = membersAfterKey f2 key r1
          simp only [membersAfterKey]
          cases hsw1 : skipWs r1 with
          | nil => rfl
          | cons c2 r2 =>
            have hsl1 : (skipWs r1).length ≤ r1.length := len_dropWhile_le _ _
            rw [hsw1] at hsl1
            simp only [List.length_cons] at hsl1
            by_cases hc2 : (c2 == ':') = true
            · simp only [hc2, ite_true]
              simp only [membersAfterColon]
              have hsl2 : (skipWs r2).length ≤ r2.length := len_dropWhile_le _ _
              rw [parseValue_fuel f1 f2 (skipWs r2) (by omega) (by omega)]
              cases hval : parseValue f2 (skipWs r2) with
              | none => rfl
              | some q =>
                obtain ⟨v, r3⟩ := q
                have hvl : r3.length < (skipWs r2).length :=
                  parseValue_some_len f2 _ _ _ hval
                show membersAfterValue f1 key v r3 = membersAfterValue f2 key v r3
                simp only [membersAfterValue]
                cases hsw3 : skipWs r3 with
                | nil => rfl
                | cons c3 r4 =>
                  have hsl3 : (skipWs r3).length ≤ r3.length := len_dropWhile_le _ _
                  rw [hsw3] at hsl3
                  simp only [List.length_cons] at hsl3
                  by_cases hc3 : (c3 == ',') = true
                  · simp only [hc3, ite_true]
                    have hsl4 : (skipWs r4).length ≤ r4.length := len_dropWhile_le _ _
                    rw [parseMembers_fuel f1 f2 (skipWs r4) (by omega) (by omega)]
                  · simp only [hc3, Bool.false_eq_true, ite_false]
            · simp only [hc2, Bool.false_eq_true, ite_false]
      · simp only [hq, Bool.false_eq_true, ite_false]

/-- Above the `3 * length + 4` threshold the exact fuel value is irrelevant
to the element loop. -/
theorem parseElems_fuel :
    ∀ (f1 f2 : Nat) (s : List Char),
      3 * s.length + 4 ≤ f1 → 3 * s.length + 4 ≤ f2 →
      parseElems f1 s = parseElems f2 s
  | 0, _, _, hf1, _ => absurd hf1 (by omega)
  | _ + 1, 0, _, _, hf2 => absurd hf2 (by omega)
  | f1 + 1, f2 + 1, s, hf1, hf2 => by
    rw [parseElems_succ f1 s, parseElems_succ f2 s]
    rw [parseValue_fuel f1 f2 s (by omega) (by omega)]
    cases hval : parseValue f2 s with
    | none => rfl
    | some p =>
      obtain ⟨v, r1⟩ := p
      have hvl : r1.length < s.length := parseValue_some_len f2 s v r1 hval
      show elemsAfterValue f1 v r1 = elemsAfterValue f2 v r1
      simp only [elemsAfterValue]
      cases hsw : skipWs r1 with
      | nil => rfl
      | cons c2 r2 =>
        have hsl : (skipWs r1).length ≤ r1.length := len_dropWhile_le _ _
        rw [hsw] at hsl
        simp only [List.length_cons] at hsl
        by_cases hc2 : (c2 == ',') = true
        · simp only [hc2, ite_true]
          have hsl2 : (skipWs r2).length ≤ r2.length := len_dropWhile_le _ _
          rw [parseElems_fuel f1 f2 (skipWs r2) (by omega) (by omega)]
        · simp only [hc2, Bool.false_eq_true, ite_false]

end

/-- `json.loads` ignores JSON whitespace padding on either side of the
document. -/
theorem parseJsonTop_pad {wa wb : List Char} (X : List Char)
    (hwa : ∀ c ∈ wa, isJsonWs c = true) (hwb : ∀ c ∈ wb, isJsonWs c = true) :
    parseJsonTop (wa ++ X ++ wb) = parseJsonTop X := by
  rw [parseJsonTop, parseJsonTop]
  have hskip : skipWs (wa ++ X ++ wb) = skipWs (X ++ wb) := by
    rw [List.append_assoc, skipWs, dropWhile_append_all wa (X ++ wb) hwa, ← skipWs]
  rw [hskip]
  cases hd : skipWs X with
  | nil =>
    rw [skipWs_append_nil hwb hd, parseValue_nil, parseValue_nil]
  | cons d dr =>
    have hdl : (skipWs X).length ≤ X.length := len_dropWhile_le _ _
    rw [hd] at hdl
    rw [skipWs_append_cons hd,
      show d :: (dr ++ wb) = (d :: dr) ++ wb from rfl,
      parseValue_append_ws wb hwb _ (d :: dr),
      parseValue_fuel (3 * (wa ++ X ++ wb).length + 4) (3 * X.length + 4) (d :: dr)
        (by simp only [List.length_cons, List.length_append] at hdl ⊢; omega)
        (by simp only [List.length_cons] at hdl ⊢; omega)]
    cases hv : parseValue (3 * X.length + 4) (d :: dr) with
    | none => rfl
    | some p =>
      obtain ⟨v, r⟩ := p
      simp only [Option.map_some']
      show (if (skipWs (r ++ wb)).isEmpty = true then some v else none) =
           (if (skipWs r).isEmpty = true then some v else none)
      cases hr : skipWs r with
      | nil => simp [skipWs_append_nil hwb hr]
      | cons e er => simp [skipWs_append_cons hr]

/-- Every JSON whitespace character is Python whitespace. -/
theorem pySpace_of_jsonWs {c : Char} (h : isJsonWs c = true) : isPySpace c = true := by
  simp only [isJsonWs, Bool.or_eq_true, beq_iff_eq] at h
  rcases h with ((h | h) | h) | h <;> subst h <;> decide

/-- Membership in a `takeWhile` prefix survives extending the list. -/
theorem mem_takeWhile_append_left {p : Char → Bool} :
    ∀ (a b : List Char) (x : Char), x ∈ a.takeWhile p → x ∈ (a ++ b).takeWhile p
  | [], _, x, hx => absurd hx (by simp)
  | c :: a, b, x, hx => by
    by_cases hp : p c = true
    · rw [List.takeWhile_cons_of_pos hp] at hx
      rw [List.cons_append, List.takeWhile_cons_of_pos hp]
      rcases List.mem_cons.mp hx with h | h
      · exact List.mem_cons.mpr (Or.inl h)
      · exact List.mem_cons.mpr (Or.inr (mem_takeWhile_append_left a b x h))
    · rw [List.takeWhile_cons_of_neg hp] at hx
      exact absurd hx (List.not_mem_nil x)

/-- Two predicates with `q ⊆ p` drop the same prefix when every dropped
character satisfies `q`. -/
theorem dropWhile_congr_sub {p q : Char → Bool} (hqp : ∀ c, q c = true → p c = true) :
    ∀ (t : List Char), (∀ c ∈ t.takeWhile p, q c = true) →
      t.dropWhile p = t.dropWhile q
  | [], _ => rfl
  | c :: t, h => by
    by_cases hp : p c = true
    · have hq : q c = true := by
        apply h
        rw [List.takeWhile_cons_of_pos hp]
        exact List.mem_cons_self _ _
      rw [List.dropWhile_cons_of_pos hp, List.dropWhile_cons_of_pos hq]
      apply dropWhile_congr_sub hqp t
      intro x hx
      apply h
      rw [List.takeWhile_cons_of_pos hp]
      exact List.mem_cons_of_mem _ hx
    · have hq : ¬q c = true := fun hb => hp (hqp c hb)
      rw [List.dropWhile_cons_of_neg hp, List.dropWhile_cons_of_neg hq]

/-- When everything `str.strip()` removes is JSON whitespace, stripping and
JSON-trimming agree. -/
theorem pyStrip_eq_jsonTrim {t : List Char} (h : boundaryJsonWs t = true) :
    pyStrip t = jsonTrim t := by
  rw [boundaryJsonWs, Bool.and_eq_true] at h
  obtain ⟨h1, h2⟩ := h
  rw [List.all_eq_true] at h1 h2
  have e1 : t.dropWhile isPySpace = t.dropWhile isJsonWs :=
    dropWhile_congr_sub (fun c => pySpace_of_jsonWs) t h1
  have hrev : t.reverse =
      (t.dropWhile isPySpace).reverse ++ (t.takeWhile isPySpace).reverse := by
    rw [← List.reverse_append, List.takeWhile_append_dropWhile]
  have cond2 : ∀ c ∈ ((t.dropWhile isPySpace).reverse).takeWhile isPySpace,
      isJsonWs c = true := by
    intro c hc
    apply h2
    rw [hrev]
    exact mem_takeWhile_append_left _ _ _ hc
  have e2 := dropWhile_congr_sub (fun c => pySpace_of_jsonWs)
    ((t.dropWhile isPySpace).reverse) cond2
  rw [pyStrip, jsonTrim, e2, e1]

/-- Every string splits as JSON whitespace, its JSON trim, and JSON
whitespace. -/
theorem jsonTrim_decomp (t : List Char) :
    ∃ w1 w2, (∀ c ∈ w1, isJsonWs c = true) ∧ (∀ c ∈ w2, isJsonWs c = true) ∧
      t = w1 ++ (jsonTrim t ++ w2) := by
  refine ⟨t.takeWhile isJsonWs,
    ((t.dropWhile isJsonWs).reverse.takeWhile isJsonWs).reverse, ?_, ?_, ?_⟩
  · intro c hc
    exact List.mem_takeWhile_imp hc
  · intro c hc
    rw [List.mem_reverse] at hc
    exact List.mem_takeWhile_imp hc
  · have hdw : jsonTrim t ++ ((t.dropWhile isJsonWs).reverse.takeWhile isJsonWs).reverse
        = t.dropWhile isJsonWs := by
      rw [jsonTrim, ← List.reverse_append, List.takeWhile_append_dropWhile,
        List.reverse_reverse]
    rw [hdw, List.takeWhile_append_dropWhile]

/-- A JSON whitespace character neither starts nor occurs in either fence
pattern. -/
theorem jsonWs_not_fence {c : Char} (h : isJsonWs c = true) :
    fenceJsonPat.head? ≠ some c ∧ fencePat.head? ≠ some c ∧
      c ∉ fenceJsonPat ∧ c ∉ fencePat := by
  simp only [isJsonWs, Bool.or_eq_true, beq_iff_eq] at h
  rcases h with ((h | h) | h) | h <;> subst h <;> refine ⟨?_, ?_, ?_, ?_⟩ <;> decide

/-- Fence deletion passes through JSON whitespace blocks on either side. -/
theorem stripFences_ws_append {w1 w2 : List Char} (m : List Char)
    (h1 : ∀ c ∈ w1, isJsonWs c = true) (h2 : ∀ c ∈ w2, isJsonWs c = true) :
    stripFences (w1 ++ (m ++ w2)) = w1 ++ (stripFences m ++ w2) := by
  rw [stripFences,
    pyReplaceDel_append_left fenceJsonPat w1 (m ++ w2)
      (fun c hc => (jsonWs_not_fence (h1 c hc)).1),
    pyReplaceDel_append_right fenceJsonPat w2
      (fun c hc => (jsonWs_not_fence (h2 c hc)).2.2.1) m,
    pyReplaceDel_append_left fencePat w1 _
      (fun c hc => (jsonWs_not_fence (h1 c hc)).2.1),
    pyReplaceDel_append_right fencePat w2
      (fun c hc => (jsonWs_not_fence (h2 c hc)).2.2.2) (pyReplaceDel fenceJsonPat m)]
  rfl

/-- A nonempty list is a prefix of itself extended by anything. -/
theorem isPrefixOf_self_append : ∀ (p X : List Char), p.isPrefixOf (p ++ X) = true
  | [], X => nil_isPrefixOf X
  | c :: p2, X => by
    rw [List.cons_append, cons_isPrefixOf_cons]
    simp [isPrefixOf_self_append p2 X]

/-- Deleting a pattern that sits at the head removes it and continues. -/
theorem pyReplaceDel_pat_prefix (pat X : List Char) (hne : pat ≠ []) :
    pyReplaceDel pat (pat ++ X) = pyReplaceDel pat X := by
  cases pat with
  | nil => exact absurd rfl hne
  | cons p0 pat2 =>
    rw [List.cons_append, pyReplaceDel_cons]
    have hpre : (p0 :: pat2).isPrefixOf (p0 :: (pat2 ++ X)) = true := by
      rw [← List.cons_append]
      exact isPrefixOf_self_append (p0 :: pat2) X
    rw [if_pos (by simp [hpre]),
      show p0 :: (pat2 ++ X) = (p0 :: pat2) ++ X from rfl,
      List.drop_left]

/-- `str.strip()` on the fenced form removes exactly the one outer space on
each side (the fences protect the inner newlines). -/
theorem pyStrip_fenceWrap (t : List Char) :
    pyStrip (fenceWrap t) = "```json\n".data ++ (t ++ "\n```".data) := by
  have hL : (fenceWrap t).dropWhile isPySpace
      = "```json\n".data ++ (t ++ "\n``` ".data) := by
    show (' ' :: ("```json\n".data ++ (t ++ "\n``` ".data))).dropWhile isPySpace = _
    rw [List.dropWhile_cons_of_pos (by decide : isPySpace ' ' = true)]
    show (backtickChar :: ("``json\n".data ++ (t ++ "\n``` ".data))).dropWhile isPySpace = _
    rw [List.dropWhile_cons_of_neg (by decide : ¬isPySpace backtickChar = true)]
    rfl
  rw [pyStrip, hL, List.reverse_append, List.reverse_append,
    show ("\n``` ".data).reverse = " ```\n".data from by decide,
    show ("```json\n".data).reverse = "\nnosj```".data from by decide]
  show (((' ' :: (("```\n".data ++ t.reverse) ++ "\nnosj```".data)).dropWhile
    isPySpace).reverse) = _
  rw [List.dropWhile_cons_of_pos (by decide : isPySpace ' ' = true)]
  show ((backtickChar :: (("``\n".data ++ t.reverse) ++ "\nnosj```".data)).dropWhile
    isPySpace).reverse = _
  rw [List.dropWhile_cons_of_neg (by decide : ¬isPySpace backtickChar = true)]
  show ((("```\n".data ++ t.reverse) ++ "\nnosj```".data)).reverse = _
  rw [List.reverse_append, List.reverse_append, List.reverse_reverse,
    show ("```\n".data).reverse = "\n```".data from by decide,
    show ("\nnosj```".data).reverse = "```json\n".data from by decide]

/-- The cleaning pipeline on the fenced form: both fences disappear and only
the two inner newlines remain around the cleaned body. -/
theorem cleanResponse_fenceWrap (t : List Char) :
    cleanResponse (fenceWrap t) = '\n' :: (stripFences t ++ ['\n']) := by
  rw [cleanResponse, pyStrip_fenceWrap, stripFences,
    show "```json\n".data ++ (t ++ "\n```".data)
      = fenceJsonPat ++ ('\n' :: (t ++ "\n```".data)) from rfl,
    pyReplaceDel_pat_prefix fenceJsonPat _ (by decide)]
  have hsep1 := pyReplaceDel_append_sep fenceJsonPat '\n' (by decide) []
    (t ++ "\n```".data)
  rw [List.nil_append] at hsep1
  rw [hsep1, show pyReplaceDel fenceJsonPat ([] : List Char) = [] from rfl,
    List.nil_append,
    show t ++ "\n```".data = t ++ '\n' :: "```".data from rfl,
    pyReplaceDel_append_sep fenceJsonPat '\n' (by decide) t "```".data,
    show pyReplaceDel fenceJsonPat "```".data = "```".data from by decide]
  have hsep2 := pyReplaceDel_append_sep fencePat '\n' (by decide) []
    (pyReplaceDel fenceJsonPat t ++ '\n' :: "```".data)
  rw [List.nil_append] at hsep2
  rw [hsep2, show pyReplaceDel fencePat ([] : List Char) = [] from rfl,
    List.nil_append,
    pyReplaceDel_append_sep fencePat '\n' (by decide)
      (pyReplaceDel fenceJsonPat t) "```".data,
    show pyReplaceDel fencePat "```".data = [] from by decide]
  rfl

/-- C2: wrapping a response in markdown fences (```json before, ``` after,
with surrounding whitespace) yields the same classification as the unfenced
text whenever every stripped boundary character is JSON whitespace; the
fence-stripping substitution is idempotent and is the identity on fence-free
text. -/
theorem claim2_fence_equivalence :
    (∀ t : List Char, boundaryJsonWs t = true →
        classifyParse (fenceWrap t) = classifyParse t) ∧
    (∀ s : List Char, stripFences (stripFences s) = stripFences s) ∧
    (∀ s : List Char, hasPat fencePat s = false → stripFences s = s) := by
  refine ⟨?_, stripFences_idem, stripFences_of_no_fence⟩
  intro t hb
  obtain ⟨w1, w2, hw1, hw2, hdec⟩ := jsonTrim_decomp t
  have hRHS : classifyParse t = parseJsonTop (stripFences (jsonTrim t)) := by
    rw [classifyParse, cleanResponse, pyStrip_eq_jsonTrim hb]
  have hsf : stripFences t = w1 ++ (stripFences (jsonTrim t) ++ w2) := by
    conv_lhs => rw [hdec]
    exact stripFences_ws_append (jsonTrim t) hw1 hw2
  rw [classifyParse, cleanResponse_fenceWrap, hsf, hRHS]
  have hshape : '\n' :: ((w1 ++ (stripFences (jsonTrim t) ++ w2)) ++ ['\n'])
      = ('\n' :: w1) ++ stripFences (jsonTrim t) ++ (w2 ++ ['\n']) := by
    simp [List.append_assoc]
  rw [hshape]
  apply parseJsonTop_pad
  · intro c hc
    rcases List.mem_cons.mp hc with h | h
    · subst h; decide
    · exact hw1 c h
  · intro c hc
    rcases List.mem_append.mp hc with h | h
    · exact hw2 c h
    · rw [List.mem_singleton.mp h]; decide

/-- C2 witness: the spec's concrete fenced scenario classifies exactly like
its unfenced form, to the documented Irrelevant / no FA link object. -/
theorem claim2_witness :
    boundaryJsonWs "\x7b\"label\":\"Irrelevant\",\"reason\":\"no FA link\"\x7d".data = true ∧
    classify_abstract " ```json\n\x7b\"label\":\"Irrelevant\",\"reason\":\"no FA link\"\x7d\n``` " =
      classify_abstract "\x7b\"label\":\"Irrelevant\",\"reason\":\"no FA link\"\x7d" ∧
    classify_abstract "\x7b\"label\":\"Irrelevant\",\"reason\":\"no FA link\"\x7d" =
      some (Json.obj [(labelKey, Json.str "Irrelevant".data),
                      (reasonKey, Json.str "no FA link".data)]) := by
  refine ⟨by decide, ?_, rfl⟩
  have h := claim2_fence_equivalence.1
    "\x7b\"label\":\"Irrelevant\",\"reason\":\"no FA link\"\x7d".data (by decide)
  show classifyParse (" ```json\n\x7b\"label\":\"Irrelevant\",\"reason\":\"no FA link\"\x7d\n``` ").data
    = classifyParse ("\x7b\"label\":\"Irrelevant\",\"reason\":\"no FA link\"\x7d").data
  rw [show (" ```json\n\x7b\"label\":\"Irrelevant\",\"reason\":\"no FA link\"\x7d\n``` ").data
      = fenceWrap "\x7b\"label\":\"Irrelevant\",\"reason\":\"no FA link\"\x7d".data from rfl]
  exact h

/-- Decimal digits are not Python whitespace. -/
theorem digit_not_pySpace {c : Char} (h : c.isDigit = true) : isPySpace c = false := by
  simp [Char.isDigit] at h
  obtain ⟨h1, h2⟩ := h
  have hs : (c == ' ') = false := by
    by_contra hb
    rw [Bool.not_eq_false, beq_iff_eq] at hb
    subst hb
    exact absurd h1 (by decide)
  have h1a : 48 ≤ c.toNat := h1
  have h2a : c.toNat ≤ 57 := h2
  simp [isPySpace, hs]
  omega

/-- A verified prefix splits the list at the prefix length. -/
theorem eq_append_drop_of_isPrefixOf :
    ∀ (p s : List Char), p.isPrefixOf s = true → s = p ++ s.drop p.length
  | [], s, _ => by simp
  | c :: p2, [], h => absurd h (by rw [cons_isPrefixOf_nil]; simp)
  | c :: p2, d :: s2, h => by
    rw [cons_isPrefixOf_cons, Bool.and_eq_true, beq_iff_eq] at h
    obtain ⟨hcd, hp⟩ := h
    subst hcd
    simp only [List.cons_append, List.length_cons, List.drop_succ_cons, List.cons.injEq,
      true_and]
    exact eq_append_drop_of_isPrefixOf p2 s2 hp

/-- Composing an end-split with a possibly-trivial further end-split. -/
theorem endSplit_trans {P : Char → Prop} {X Y Z : List Char}
    (h1 : ∃ p e, X = p ++ e :: Y ∧ P e)
    (h2 : Z = Y ∨ ∃ p e, Y = p ++ e :: Z ∧ P e) :
    ∃ p e, X = p ++ e :: Z ∧ P e := by
  obtain ⟨p1, e1, hx, hP1⟩ := h1
  rcases h2 with h2 | ⟨p2, e2, hy, hP2⟩
  · exact ⟨p1, e1, by rw [h2]; exact hx, hP1⟩
  · exact ⟨p1 ++ e1 :: p2, e2, by rw [hx, hy]; simp [List.append_assoc], hP2⟩

/-- A successful hex-quad scan consumes exactly four characters. -/
theorem parseU4_some_split {s : List Char} {n : Nat} {r : List Char}
    (h : parseU4 s = some (n, r)) : ∃ p, s = p ++ r := by
  cases s with
  | nil => exact Option.noConfusion h
  | cons a s1 =>
    cases s1 with
    | nil => exact Option.noConfusion h
    | cons b s2 =>
      cases s2 with
      | nil => exact Option.noConfusion h
      | cons c0 s3 =>
        cases s3 with
        | nil => exact Option.noConfusion h
        | cons d r2 =>
          simp only [parseU4] at h
          split at h
          · injection h with h
            injection h with hn hr
            exact ⟨[a, b, c0, d], by rw [← hr]; rfl⟩
          · exact Option.noConfusion h

/-- A successful low-surrogate scan splits off a prefix. -/
theorem parseLowSurr_some_split {s : List Char} {m : Nat} {r : List Char}
    (h : parseLowSurr s = some (m, r)) : ∃ p, s = p ++ r := by
  cases s with
  | nil => exact Option.noConfusion h
  | cons e2 s1 =>
    cases s1 with
    | nil => exact Option.noConfusion h
    | cons u2 r0 =>
      simp only [parseLowSurr] at h
      by_cases hc : (e2 == '\\' && u2 == 'u') = true
      · simp only [hc, ite_true] at h
        split at h
        · rename_i q r2 heq
          split at h
          · injection h with h
            injection h with hm hr
            obtain ⟨p, hp⟩ := parseU4_some_split heq
            exact ⟨e2 :: u2 :: p, by rw [hp, ← hr]; rfl⟩
          · exact Option.noConfusion h
        · exact Option.noConfusion h
      · simp only [hc, Bool.false_eq_true, ite_false] at h
        exact Option.noConfusion h

/-- A successful string-body scan ends exactly at a closing quote: the input
is the consumed body followed by `"` and the remainder. -/
theorem parseStringBodyF_some_split :
    ∀ (f : Nat) (s cs r : List Char),
      parseStringBodyF f s = some (cs, r) → ∃ p, s = p ++ '"' :: r
  | 0, _, _, _, h => Option.noConfusion h
  | _ + 1, [], _, _, h => Option.noConfusion h
  | f + 1, c :: rest, cs, r, h => by
    simp only [parseStringBodyF] at h
    repeat' split at h
    all_goals try exact Option.noConfusion h
    · rename_i hq
      injection h with h
      injection h with _ h2
      refine ⟨[], ?_⟩
      rw [show c = '"' from beq_iff_eq.mp hq, h2]
      rfl
    · rename_i e rest2 hu xo n rest3 heq hr
      rw [mapConsStr] at h
      cases hin : parseStringBodyF f rest3 with
      | none => rw [hin] at h; exact Option.noConfusion h
      | some p =>
        rw [hin] at h
        injection h with h
        injection h with _ h2
        obtain ⟨p3, hp3⟩ := parseStringBodyF_some_split f rest3 p.1 p.2 (by rw [hin])
        obtain ⟨p4, hp4⟩ := parseU4_some_split heq
        refine ⟨c :: e :: (p4 ++ p3), ?_⟩
        rw [← h2, hp4, hp3]
        simp [List.append_assoc]
    · rename_i e rest2 hu xo n rest3 heq1 hr1 hr2 xo2 m r2 heq2
      rw [mapConsStr] at h
      cases hin : parseStringBodyF f r2 with
      | none => rw [hin] at h; exact Option.noConfusion h
      | some p =>
        rw [hin] at h
        injection h with h
        injection h with _ h2
        obtain ⟨p3, hp3⟩ := parseStringBodyF_some_split f r2 p.1 p.2 (by rw [hin])
        obtain ⟨p4, hp4⟩ := parseU4_some_split heq1
        obtain ⟨p5, hp5⟩ := parseLowSurr_some_split heq2
        refine ⟨c :: e :: (p4 ++ (p5 ++ p3)), ?_⟩
        rw [← h2, hp4, hp5, hp3]
        simp [List.append_assoc]
    · rename_i e rest2 hu xo d heq
      rw [mapConsStr] at h
      cases hin : parseStringBodyF f rest2 with
      | none => rw [hin] at h; exact Option.noConfusion h
      | some p =>
        rw [hin] at h
        injection h with h
        injection h with _ h2
        obtain ⟨p3, hp3⟩ := parseStringBodyF_some_split f rest2 p.1 p.2 (by rw [hin])
        refine ⟨c :: e :: p3, ?_⟩
        rw [← h2, hp3]
        rfl
    · rw [mapConsStr] at h
      cases hin : parseStringBodyF f rest with
      | none => rw [hin] at h; exact Option.noConfusion h
      | some p =>
        rw [hin] at h
        injection h with h
        injection h with _ h2
        obtain ⟨p3, hp3⟩ := parseStringBodyF_some_split f rest p.1 p.2 (by rw [hin])
        refine ⟨c :: p3, ?_⟩
        rw [← h2, hp3]
        rfl

/-- Wrapper version of the end-split. -/
theorem parseStringBody_some_split {s cs r : List Char}
    (h : parseStringBody s = some (cs, r)) : ∃ p, s = p ++ '"' :: r :=
  parseStringBodyF_some_split s.length s cs r h

/-- A nonempty all-digit run followed by anything splits off its last digit. -/
theorem digitRun_split (L dw : List Char) (hne : L ≠ [])
    (hdig : ∀ x ∈ L, x.isDigit = true) :
    ∃ p e, L ++ dw = p ++ e :: dw ∧ e.isDigit = true := by
  refine ⟨L.dropLast, L.getLast hne, ?_, hdig _ (List.getLast_mem hne)⟩
  conv_lhs => rw [← List.dropLast_append_getLast hne]
  simp [List.append_assoc]

/-- A successful integer-part match ends in a digit. -/
theorem parseIntDigits_some_split {s : List Char} {ip : Nat} {r : List Char}
    (h : parseIntDigits s = some (ip, r)) :
    ∃ p e, s = p ++ e :: r ∧ e.isDigit = true := by
  cases s with
  | nil => exact Option.noConfusion h
  | cons c rest =>
    rw [parseIntDigits] at h
    by_cases h0 : (c == '0') = true
    · rw [if_pos h0] at h
      injection h with h
      injection h with _ h2
      refine ⟨[], c, by rw [h2]; rfl, by rw [beq_iff_eq.mp h0]; decide⟩
    · rw [if_neg h0] at h
      by_cases hd : c.isDigit = true
      · rw [if_pos hd] at h
        injection h with h
        injection h with _ h2
        have hsplit : c :: rest
            = (c :: rest.takeWhile Char.isDigit) ++ rest.dropWhile Char.isDigit := by
          rw [List.cons_append, List.takeWhile_append_dropWhile]
        obtain ⟨p, e, hpe, hed⟩ := digitRun_split (c :: rest.takeWhile Char.isDigit)
          (rest.dropWhile Char.isDigit) (by simp)
          (fun x hx => by
            rcases List.mem_cons.mp hx with hc | hc
            · rw [hc]; exact hd
            · exact List.mem_takeWhile_imp hc)
        exact ⟨p, e, by rw [hsplit, ← h2]; exact hpe, hed⟩
      · rw [if_neg hd] at h
        exact Option.noConfusion h

/-- The fraction group either matches nothing or ends in a digit. -/
theorem parseFracDigits_split (s : List Char) :
    (parseFracDigits s).2 = s ∨
      ∃ p e, s = p ++ e :: (parseFracDigits s).2 ∧ e.isDigit = true := by
  cases s with
  | nil => left; rfl
  | cons d rest =>
    by_cases hd : (d == '.') = true
    · cases htw : rest.takeWhile Char.isDigit with
      | nil => left; simp [parseFracDigits, hd, htw]
      | cons x xs =>
        right
        have h2 : (parseFracDigits (d :: rest)).2 = rest.dropWhile Char.isDigit := by
          simp [parseFracDigits, hd, htw]
        rw [h2]
        have hsplit : d :: rest = d :: ((x :: xs) ++ rest.dropWhile Char.isDigit) := by
          rw [← htw, List.takeWhile_append_dropWhile]
        obtain ⟨p, e, hpe, hed⟩ := digitRun_split (x :: xs) (rest.dropWhile Char.isDigit)
          (by simp)
          (fun z hz => by rw [← htw] at hz; exact List.mem_takeWhile_imp hz)
        refine ⟨d :: p, e, ?_, hed⟩
        rw [hsplit, hpe]
        rfl
    · left
      simp [parseFracDigits, hd]

/-- The exponent digit run either fails (input untouched) or ends in a digit. -/
theorem expDigits_split (x : Char) (rest X : List Char) (b : Bool) (pre : List Char)
    (hs : x :: rest = pre ++ X) :
    (expDigits x rest X b).2 = x :: rest ∨
      ∃ p e, x :: rest = p ++ e :: (expDigits x rest X b).2 ∧ e.isDigit = true := by
  cases htw : X.takeWhile Char.isDigit with
  | nil => left; simp [expDigits, htw]
  | cons y ys =>
    right
    have h2 : (expDigits x rest X b).2 = X.dropWhile Char.isDigit := by
      simp [expDigits, htw]
    rw [h2]
    have hX : X = (y :: ys) ++ X.dropWhile Char.isDigit := by
      rw [← htw, List.takeWhile_append_dropWhile]
    obtain ⟨p, e, hpe, hed⟩ := digitRun_split (y :: ys) (X.dropWhile Char.isDigit)
      (by simp)
      (fun z hz => by rw [← htw] at hz; exact List.mem_takeWhile_imp hz)
    have hX2 : X = p ++ e :: X.dropWhile Char.isDigit := by
      rw [hpe] at hX
      exact hX
    refine ⟨pre ++ p, e, ?_, hed⟩
    rw [hs]
    conv_lhs => rw [hX2]
    simp [List.append_assoc]

/-- The exponent group either matches nothing or ends in a digit. -/
theorem parseExpPart_split (s : List Char) :
    (parseExpPart s).2 = s ∨
      ∃ p e, s = p ++ e :: (parseExpPart s).2 ∧ e.isDigit = true := by
  cases s with
  | nil => left; rfl
  | cons c rest =>
    cases rest with
    | nil =>
      left
      rw [show parseExpPart (c :: ([] : List Char)) =
            if (c == 'e' || c == 'E') = true then (none, c :: ([] : List Char))
            else (none, c :: ([] : List Char)) from rfl]
      split <;> rfl
    | cons d r2 =>
      rw [show parseExpPart (c :: (d :: r2)) =
            if (c == 'e' || c == 'E') = true then
              (if (d == '+') = true then expDigits c (d :: r2) r2 false
               else if (d == '-') = true then expDigits c (d :: r2) r2 true
               else expDigits c (d :: r2) (d :: r2) false)
            else (none, c :: (d :: r2)) from rfl]
      by_cases he : (c == 'e' || c == 'E') = true
      · rw [if_pos he]
        by_cases hp : (d == '+') = true
        · rw [if_pos hp]
          exact expDigits_split c (d :: r2) r2 false [c, d] rfl
        · rw [if_neg hp]
          by_cases hm : (d == '-') = true
          · rw [if_pos hm]
            exact expDigits_split c (d :: r2) r2 true [c, d] rfl
          · rw [if_neg hm]
            exact expDigits_split c (d :: r2) (d :: r2) false [c] rfl
      · rw [if_neg he]
        left
        rfl

/-- A successful unsigned-number match ends in a digit. -/
theorem parseUNum_some_split {s : List Char} {q : ℚ} {r : List Char}
    (h : parseUNum s = some (q, r)) :
    ∃ p e, s = p ++ e :: r ∧ e.isDigit = true := by
  rw [parseUNum] at h
  repeat' split at h
  all_goals try exact Option.noConfusion h
  rename_i xo ip r1 hInt fp fds r2 hFrac ep ex r3 hExp
  injection h with h
  injection h with _ hr
  subst hr
  have intS := parseIntDigits_some_split hInt
  have fracS : r2 = r1 ∨ ∃ p e, r1 = p ++ e :: r2 ∧ e.isDigit = true := by
    have := parseFracDigits_split r1
    rw [hFrac] at this
    exact this
  have expS : r3 = r2 ∨ ∃ p e, r2 = p ++ e :: r3 ∧ e.isDigit = true := by
    have := parseExpPart_split r2
    rw [hExp] at this
    exact this
  exact endSplit_trans (endSplit_trans intS fracS) expS

/-- A successful number token ends in a non-whitespace character. -/
theorem parseNumber_some_split {s : List Char} {j : Json} {r : List Char}
    (h : parseNumber s = some (j, r)) :
    ∃ p e, s = p ++ e :: r ∧ isPySpace e = false := by
  cases s with
  | nil => exact Option.noConfusion h
  | cons c rest =>
    rw [parseNumber] at h
    by_cases hm : (c == '-') = true
    · rw [if_pos hm] at h
      by_cases hinf : "Infinity".data.isPrefixOf rest = true
      · rw [if_pos hinf] at h
        injection h with h
        injection h with _ h2
        have hrest := eq_append_drop_of_isPrefixOf "Infinity".data rest hinf
        rw [show ("Infinity".data).length = 8 from rfl] at hrest
        refine ⟨c :: "Infinit".data, 'y', ?_, by decide⟩
        rw [← h2, hrest]
        rfl
      · rw [if_neg hinf] at h
        split at h
        · rename_i q0 r0 hu
          injection h with h
          injection h with _ h2
          obtain ⟨p, e, hpe, hed⟩ := parseUNum_some_split hu
          exact ⟨c :: p, e, by rw [← h2, hpe]; rfl, digit_not_pySpace hed⟩
        · exact Option.noConfusion h
    · rw [if_neg hm] at h
      split at h
      · rename_i q0 r0 hu
        injection h with h
        injection h with _ h2
        obtain ⟨p, e, hpe, hed⟩ := parseUNum_some_split hu
        exact ⟨p, e, by rw [← h2]; exact hpe, digit_not_pySpace hed⟩
      · exact Option.noConfusion h

/-- Suffix composition: a suffix of a suffix is a suffix. -/
theorem sfx_trans {X Y Z : List Char} (h1 : ∃ p, X = p ++ Y) (h2 : ∃ p, Y = p ++ Z) :
    ∃ p, X = p ++ Z := by
  obtain ⟨p1, h1⟩ := h1
  obtain ⟨p2, h2⟩ := h2
  exact ⟨p1 ++ p2, by rw [h1, h2, List.append_assoc]⟩

/-- Skipping whitespace yields a suffix. -/
theorem sfx_skipWs (X : List Char) : ∃ p, X = p ++ skipWs X :=
  ⟨X.takeWhile isJsonWs, (List.takeWhile_append_dropWhile _ _).symm⟩

/-- An end-split gives the remainder as a suffix. -/
theorem sfx_of_end {X Y : List Char} {e : Char} {p : List Char}
    (h : X = p ++ e :: Y) : ∃ q, X = q ++ Y :=
  ⟨p ++ [e], by rw [h]; simp⟩

/-- A cons-form whitespace skip gives the tail as a suffix. -/
theorem sfx_of_skipWs_cons {X : List Char} {c : Char} {r : List Char}
    (h : skipWs X = c :: r) : ∃ p, X = p ++ r := by
  refine ⟨X.takeWhile isJsonWs ++ [c], ?_⟩
  conv_lhs => rw [← List.takeWhile_append_dropWhile isJsonWs X]
  rw [show List.dropWhile isJsonWs X = c :: r from h]
  simp

/-- The decomposition of the input around a cons-form whitespace skip. -/
theorem skipWs_cons_decomp {X : List Char} {c : Char} {r : List Char}
    (h : skipWs X = c :: r) : X = X.takeWhile isJsonWs ++ (c :: r) := by
  conv_lhs => rw [← List.takeWhile_append_dropWhile isJsonWs X]
  rw [show List.dropWhile isJsonWs X = c :: r from h]

/-- Existential form of the whitespace-skip decomposition. -/
theorem skipWs_cons_split {X : List Char} {c : Char} {r : List Char}
    (h : skipWs X = c :: r) : ∃ tw, X = tw ++ (c :: r) :=
  ⟨X.takeWhile isJsonWs, skipWs_cons_decomp h⟩

mutual

/-- A successful value scan ends in a non-whitespace character: the input is
the consumed token text, whose last character is not Python whitespace,
followed by the remainder. -/
theorem parseValue_end :
    ∀ (f : Nat) (s : List Char) (v : Json) (r : List Char),
      parseValue f s = some (v, r) → ∃ p e, s = p ++ e :: r ∧ isPySpace e = false
  | 0, _, _, _, h => Option.noConfusion h
  | _ + 1, [], _, _, h => Option.noConfusion h
  | f + 1, c :: rest, v, r, h => by
    simp only [parseValue] at h
    by_cases h1 : (c == '"') = true
    · simp only [h1, ite_true] at h
      split at h
      · rename_i cs r0 heq
        injection h with h
        injection h with hv hr
        subst hr
        obtain ⟨p, hp⟩ := parseStringBody_some_split heq
        exact ⟨c :: p, '"', by rw [hp]; rfl, by decide⟩
      · exact Option.noConfusion h
    · simp only [h1, Bool.false_eq_true, ite_false] at h
      by_cases h2 : (c == '{') = true
      · simp only [h2, ite_true] at h
        split at h
        · exact Option.noConfusion h
        · rename_i c1 r2 hsw
          by_cases hb : (c1 == '}') = true
          · simp only [hb, ite_true] at h
            injection h with h
            injection h with hv hr
            subst hr
            obtain ⟨tw, hrest2⟩ := skipWs_cons_split hsw
            rw [beq_iff_eq.mp hb] at hrest2
            exact ⟨c :: tw, '}', by rw [hrest2]; rfl, by decide⟩
          · simp only [hb, Bool.false_eq_true, ite_false] at h
            split at h
            · rename_i ms r3 hm
              injection h with h
              injection h with hv hr
              subst hr
              obtain ⟨pm, hpm⟩ := parseMembers_end f (c1 :: r2) ms r3 hm
              obtain ⟨tw, hrest2⟩ := skipWs_cons_split hsw
              refine ⟨c :: (tw ++ pm), '}', ?_, by decide⟩
              rw [hrest2, hpm]
              simp [List.append_assoc]
            · exact Option.noConfusion h
      · simp only [h2, Bool.false_eq_true, ite_false] at h
        by_cases h3 : (c == '[') = true
        · simp only [h3, ite_true] at h
          split at h
          · exact Option.noConfusion h
          · rename_i c1 r2 hsw
            by_cases hb : (c1 == ']') = true
            · simp only [hb, ite_true] at h
              injection h with h
              injection h with hv hr
              subst hr
              obtain ⟨tw, hrest2⟩ := skipWs_cons_split hsw
              rw [beq_iff_eq.mp hb] at hrest2
              exact ⟨c :: tw, ']', by rw [hrest2]; rfl, by decide⟩
            · simp only [hb, Bool.false_eq_true, ite_false] at h
              split at h
              · rename_i es r3 he
                injection h with h
                injection h with hv hr
                subst hr
                obtain ⟨pe, hpe⟩ := parseElems_end f (c1 :: r2) es r3 he
                obtain ⟨tw, hrest2⟩ := skipWs_cons_split hsw
                refine ⟨c :: (tw ++ pe), ']', ?_, by decide⟩
                rw [hrest2, hpe]
                simp [List.append_assoc]
              · exact Option.noConfusion h
        · simp only [h3, Bool.false_eq_true, ite_false] at h
          by_cases h4 : (c == 't') = true
          · simp only [h4, ite_true] at h
            by_cases hp : "rue".data.isPrefixOf rest = true
            · simp only [hp, ite_true] at h
              injection h with h
              injection h with hv hr
              have hrest := eq_append_drop_of_isPrefixOf "rue".data rest hp
              rw [show ("rue".data).length = 3 from rfl] at hrest
              refine ⟨c :: "ru".data, 'e', ?_, by decide⟩
              rw [← hr, hrest]
              rfl
            · simp only [hp, Bool.false_eq_true, ite_false] at h
              exact Option.noConfusion h
          · simp only [h4, Bool.false_eq_true, ite_false] at h
            by_cases h5 : (c == 'f') = true
            · simp only [h5, ite_true] at h
              by_cases hp : "alse".data.isPrefixOf rest = true
              · simp only [hp, ite_true] at h
                injection h with h
                injection h with hv hr
                have hrest := eq_append_drop_of_isPrefixOf "alse".data rest hp
                rw [show ("alse".data).length = 4 from rfl] at hrest
                refine ⟨c :: "als".data, 'e', ?_, by decide⟩
                rw [← hr, hrest]
                rfl
              · simp only [hp, Bool.false_eq_true, ite_false] at h
                exact Option.noConfusion h
            · simp only [h5, Bool.false_eq_true, ite_false] at h
              by_cases h6 : (c == 'n') = true
              · simp only [h6, ite_true] at h
                by_cases hp : "ull".data.isPrefixOf rest = true
                · simp only [hp, ite_true] at h
                  injection h with h
                  injection h with hv hr
                  have hrest := eq_append_drop_of_isPrefixOf "ull".data rest hp
                  rw [show ("ull".data).length = 3 from rfl] at hrest
                  refine ⟨c :: "ul".data, 'l', ?_, by decide⟩
                  rw [← hr, hrest]
                  rfl
                · simp only [hp, Bool.false_eq_true, ite_false] at h
                  exact Option.noConfusion h
              · simp only [h6, Bool.false_eq_true, ite_false] at h
                by_cases h7 : (c == 'N') = true
                · simp only [h7, ite_true] at h
                  by_cases hp : "aN".data.isPrefixOf rest = true
                  · simp only [hp, ite_true] at h
                    injection h with h
                    injection h with hv hr
                    have hrest := eq_append_drop_of_isPrefixOf "aN".data rest hp
                    rw [show ("aN".data).length = 2 from rfl] at hrest
                    refine ⟨c :: "a".data, 'N', ?_, by decide⟩
                    rw [← hr, hrest]
                    rfl
                  · simp only [hp, Bool.false_eq_true, ite_false] at h
                    exact Option.noConfusion h
                · simp only [h7, Bool.false_eq_true, ite_false] at h
                  by_cases h8 : (c == 'I') = true
                  · simp only [h8, ite_true] at h
                    by_cases hp : "nfinity".data.isPrefixOf rest = true
                    · simp only [hp, ite_true] at h
                      injection h with h
                      injection h with hv hr
                      have hrest := eq_append_drop_of_isPrefixOf "nfinity".data rest hp
                      rw [show ("nfinity".data).length = 7 from rfl] at hrest
                      refine ⟨c :: "nfinit".data, 'y', ?_, by decide⟩
                      rw [← hr, hrest]
                      rfl
                    · simp only [hp, Bool.false_eq_true, ite_false] at h
                      exact Option.noConfusion h
                  · simp only [h8, Bool.false_eq_true, ite_false] at h
                    exact parseNumber_some_split h

/-- A successful member-loop scan ends exactly at the closing brace. -/
theorem parseMembers_end :
    ∀ (f : Nat) (s : List Char) (ms : List (List Char × Json)) (r : List Char),
      parseMembers f s = some (ms, r) → ∃ p, s = p ++ '}' :: r
  | 0, _, _, _, h => Option.noConfusion h
  | _ + 1, [], _, _, h => Option.noConfusion h
  | f + 1, c :: rest, ms, r, h => by
    simp only [parseMembers] at h
    by_cases hq : (c == '"') = true
    · simp only [hq, ite_true] at h
      split at h
      · exact Option.noConfusion h
      · rename_i key r1 hkey
        have sfx1 : ∃ p, (c :: rest) = p ++ r1 := by
          obtain ⟨pk, hpk⟩ := parseStringBody_some_split hkey
          obtain ⟨q, hqx⟩ := sfx_of_end hpk
          exact ⟨c :: q, by rw [hqx]; rfl⟩
        split at h
        · exact Option.noConfusion h
        · rename_i c2 r2 hsw1
          have sfx2 := sfx_trans sfx1 (sfx_of_skipWs_cons hsw1)
          by_cases hc2 : (c2 == ':') = true
          · simp only [hc2, ite_true] at h
            split at h
            · exact Option.noConfusion h
            · rename_i v r3 hv
              have sfx3 : ∃ p, (c :: rest) = p ++ r3 := by
                refine sfx_trans (sfx_trans sfx2 (sfx_skipWs r2)) ?_
                obtain ⟨pv, ev, hpv, _⟩ := parseValue_end f (skipWs r2) v r3 hv
                exact sfx_of_end hpv
              split at h
              · exact Option.noConfusion h
              · rename_i c3 r4 hsw3
                by_cases hc3 : (c3 == ',') = true
                · simp only [hc3, ite_true] at h
                  split at h
                  · rename_i ms2 r5 hm
                    injection h with h
                    injection h with _ hr
                    subst hr
                    obtain ⟨pm, hpm⟩ := parseMembers_end f (skipWs r4) ms2 r5 hm
                    obtain ⟨P, hP⟩ := sfx_trans
                      (sfx_trans sfx3 (sfx_of_skipWs_cons hsw3)) (sfx_skipWs r4)
                    exact ⟨P ++ pm, by rw [hP, hpm, List.append_assoc]⟩
                  · exact Option.noConfusion h
                · simp only [hc3, Bool.false_eq_true, ite_false] at h
                  by_cases hc3b : (c3 == '}') = true
                  · simp only [hc3b, ite_true] at h
                    injection h with h
                    injection h with _ hr
                    subst hr
                    obtain ⟨P, hP⟩ := sfx3
                    obtain ⟨tw3, hr3⟩ := skipWs_cons_split hsw3
                    rw [beq_iff_eq.mp hc3b] at hr3
                    exact ⟨P ++ tw3, by rw [hP, hr3, List.append_assoc]⟩
                  · simp only [hc3b, Bool.false_eq_true, ite_false] at h
                    exact Option.noConfusion h
          · simp only [hc2, Bool.false_eq_true, ite_false] at h
            exact Option.noConfusion h
    · simp only [hq, Bool.false_eq_true, ite_false] at h
      exact Option.noConfusion h

/-- A successful element-loop scan ends exactly at the closing bracket. -/
theorem parseElems_end :
    ∀ (f : Nat) (s : List Char) (es : List Json) (r : List Char),
      parseElems f s = some (es, r) → ∃ p, s = p ++ ']' :: r
  | 0, _, _, _, h => Option.noConfusion h
  | f + 1, s, es, r, h => by
    simp only [parseElems] at h
    split at h
    · exact Option.noConfusion h
    · rename_i v r1 hv
      have sfx1 : ∃ p, s = p ++ r1 := by
        obtain ⟨pv, ev, hpv, _⟩ := parseValue_end f s v r1 hv
        exact sfx_of_end hpv
      split at h
      · exact Option.noConfusion h
      · rename_i c2 r2 hsw
        by_cases hc2 : (c2 == ',') = true
        · simp only [hc2, ite_true] at h
          split at h
          · rename_i es2 r3 he
            injection h with h
            injection h with _ hr
            subst hr
            obtain ⟨pe, hpe⟩ := parseElems_end f (skipWs r2) es2 r3 he
            obtain ⟨P, hP⟩ := sfx_trans
              (sfx_trans sfx1 (sfx_of_skipWs_cons hsw)) (sfx_skipWs r2)
            exact ⟨P ++ pe, by rw [hP, hpe, List.append_assoc]⟩
          · exact Option.noConfusion h
        · simp only [hc2, Bool.false_eq_true, ite_false] at h
          by_cases hc2b : (c2 == ']') = true
          · simp only [hc2b, ite_true] at h
            injection h with h
            injection h with _ hr
            subst hr
            obtain ⟨P, hP⟩ := sfx1
            obtain ⟨tw1, hr1⟩ := skipWs_cons_split hsw
            rw [beq_iff_eq.mp hc2b] at hr1
            exact ⟨P ++ tw1, by rw [hP, hr1, List.append_assoc]⟩
          · simp only [hc2b, Bool.false_eq_true, ite_false] at h
            exact Option.noConfusion h

end

/-- A number token starts with a non-whitespace character. -/
theorem parseNumber_start {s : List Char} {j : Json} {r : List Char}
    (h : parseNumber s = some (j, r)) :
    ∃ c s2, s = c :: s2 ∧ isPySpace c = false := by
  cases s with
  | nil => exact Option.noConfusion h
  | cons c rest =>
    refine ⟨c, rest, rfl, ?_⟩
    rw [parseNumber] at h
    by_cases hm : (c == '-') = true
    · rw [beq_iff_eq.mp hm]; decide
    · rw [if_neg hm] at h
      split at h
      · rename_i q0 r0 hu
        rw [parseUNum] at hu
        repeat' split at hu
        all_goals try exact Option.noConfusion hu
        rename_i xo ip r1 hInt fp fds r2 hFrac ep ex r3 hExp
        rw [parseIntDigits] at hInt
        by_cases h0 : (c == '0') = true
        · rw [beq_iff_eq.mp h0]; decide
        · rw [if_neg h0] at hInt
          by_cases hd : c.isDigit = true
          · exact digit_not_pySpace hd
          · rw [if_neg hd] at hInt
            exact Option.noConfusion hInt
      · exact Option.noConfusion h

/-- A successfully scanned value starts with a non-whitespace character. -/
theorem parseValue_start {f : Nat} {s : List Char} {v : Json} {r : List Char}
    (h : parseValue f s = some (v, r)) :
    ∃ c s2, s = c :: s2 ∧ isPySpace c = false := by
  cases f with
  | zero => exact Option.noConfusion h
  | succ g =>
    cases s with
    | nil => exact Option.noConfusion h
    | cons c rest =>
      refine ⟨c, rest, rfl, ?_⟩
      simp only [parseValue] at h
      by_cases h1 : (c == '"') = true
      · rw [beq_iff_eq.mp h1]; decide
      · simp only [h1, Bool.false_eq_true, ite_false] at h
        by_cases h2 : (c == '{') = true
        · rw [beq_iff_eq.mp h2]; decide
        · simp only [h2, Bool.false_eq_true, ite_false] at h
          by_cases h3 : (c == '[') = true
          · rw [beq_iff_eq.mp h3]; decide
          · simp only [h3, Bool.false_eq_true, ite_false] at h
            by_cases h4 : (c == 't') = true
            · rw [beq_iff_eq.mp h4]; decide
            · simp only [h4, Bool.false_eq_true, ite_false] at h
              by_cases h5 : (c == 'f') = true
              · rw [beq_iff_eq.mp h5]; decide
              · simp only [h5, Bool.false_eq_true, ite_false] at h
                by_cases h6 : (c == 'n') = true
                · rw [beq_iff_eq.mp h6]; decide
                · simp only [h6, Bool.false_eq_true, ite_false] at h
                  by_cases h7 : (c == 'N') = true
                  · rw [beq_iff_eq.mp h7]; decide
                  · simp only [h7, Bool.false_eq_true, ite_false] at h
                    by_cases h8 : (c == 'I') = true
                    · rw [beq_iff_eq.mp h8]; decide
                    · simp only [h8, Bool.false_eq_true, ite_false] at h
                      obtain ⟨c2, s2, heq, hc2⟩ := parseNumber_start h
                      injection heq with heq1 heq2
                      rw [heq1]
                      exact hc2

/-- An occurrence in the right part survives prepending. -/
theorem hasPat_append_right_t (pat : List Char) :
    ∀ (x y : List Char), hasPat pat y = true → hasPat pat (x ++ y) = true
  | [], _, h => h
  | c :: x2, y, h => by
    rw [List.cons_append,
      show hasPat pat (c :: (x2 ++ y))
        = (pat.isPrefixOf (c :: (x2 ++ y)) || hasPat pat (x2 ++ y)) from rfl,
      hasPat_append_right_t pat x2 y h, Bool.or_true]

/-- An occurrence in the left part survives appending. -/
theorem hasPat_append_left_t (pat : List Char) :
    ∀ (x y : List Char), hasPat pat x = true → hasPat pat (x ++ y) = true
  | [], y, h => by
    have hpat : pat = [] := by
      cases pat with
      | nil => rfl
      | cons p0 p2 =>
        rw [show hasPat (p0 :: p2) [] = (p0 :: p2).isPrefixOf [] from rfl,
          cons_isPrefixOf_nil] at h
        exact Bool.noConfusion h
    subst hpat
    cases y with
    | nil => rfl
    | cons d y2 =>
      rw [List.nil_append,
        show hasPat [] (d :: y2) = (([] : List Char).isPrefixOf (d :: y2) || hasPat [] y2)
          from rfl,
        nil_isPrefixOf]
      rfl
  | c :: x2, y, h => by
    rw [show hasPat pat (c :: x2) = (pat.isPrefixOf (c :: x2) || hasPat pat x2) from rfl,
      Bool.or_eq_true] at h
    rw [List.cons_append,
      show hasPat pat (c :: (x2 ++ y))
        = (pat.isPrefixOf (c :: (x2 ++ y)) || hasPat pat (x2 ++ y)) from rfl]
    rcases h with h | h
    · have := isPrefixOf_append_right pat (c :: x2) y h
      rw [List.cons_append] at this
      rw [this]
      rfl
    · rw [hasPat_append_left_t pat x2 y h, Bool.or_true]

/-- No occurrence in the whole string means no occurrence in an infix. -/
theorem hasPat_infix_false {pat m : List Char} (a b : List Char)
    (h : hasPat pat (a ++ (m ++ b)) = false) : hasPat pat m = false := by
  cases hm : hasPat pat m with
  | false => rfl
  | true =>
    rw [hasPat_append_right_t pat a (m ++ b) (hasPat_append_left_t pat m b hm)] at h
    exact Bool.noConfusion h

/-- C1: for a response text that is well-formed JSON (an object with string
`label` and `reason` members) and contains no ``` substring, the
`classify_abstract` pipeline returns exactly the parsed object — the two
displayed values pass through unchanged. -/
theorem claim1_pass_through (t : List Char) (kvs : List (List Char × Json))
    (l r : List Char)
    (hparse : parseJsonTop t = some (Json.obj kvs))
    (hl : objGet labelKey kvs = some (Json.str l))
    (hr : objGet reasonKey kvs = some (Json.str r))
    (hfree : hasPat fencePat t = false) :
    classifyParse t = some (Json.obj kvs) ∧
    objGet labelKey kvs = some (Json.str l) ∧
    objGet reasonKey kvs = some (Json.str r) := by
  refine ⟨?_, hl, hr⟩
  rw [parseJsonTop] at hparse
  split at hparse
  · rename_i v rr hval
    by_cases hemp : (skipWs rr).isEmpty = true
    · rw [if_pos hemp] at hparse
      injection hparse with hv
      subst hv
      have hempty : skipWs rr = [] := by
        cases hsw : skipWs rr with
        | nil => rfl
        | cons x xs => rw [hsw] at hemp; exact Bool.noConfusion hemp
      have hwsrr : ∀ c ∈ rr, isJsonWs c = true := all_of_dropWhile_eq_nil rr hempty
      obtain ⟨pv, ev, hsplit, hev⟩ := parseValue_end _ _ _ _ hval
      obtain ⟨c0, s0, hhead, hc0⟩ := parseValue_start hval
      have ht : t = t.takeWhile isJsonWs ++ skipWs t :=
        (List.takeWhile_append_dropWhile _ _).symm
      have hC : skipWs t = (pv ++ [ev]) ++ rr := by
        rw [hsplit]
        simp
      have hL : t.dropWhile isPySpace = skipWs t := by
        conv_lhs => rw [ht]
        rw [dropWhile_append_all _ _
          (fun c hc => pySpace_of_jsonWs (List.mem_takeWhile_imp hc))]
        rw [hhead, List.dropWhile_cons_of_neg (by simp [hc0])]
      have hR : pyStrip t = pv ++ [ev] := by
        rw [pyStrip, hL, hC, List.reverse_append]
        rw [dropWhile_append_all rr.reverse _
          (fun c hc => pySpace_of_jsonWs (hwsrr c (List.mem_reverse.mp hc)))]
        rw [List.reverse_append]
        rw [show ([ev].reverse ++ pv.reverse) = ev :: pv.reverse from by simp]
        rw [List.dropWhile_cons_of_neg (by simp [hev])]
        simp
      have hinfix : t = t.takeWhile isJsonWs ++ (pyStrip t ++ rr) := by
        rw [hR]
        conv_lhs => rw [ht]
        rw [hC, List.append_assoc]
      have hnf : hasPat fencePat (pyStrip t) = false := by
        apply hasPat_infix_false (t.takeWhile isJsonWs) rr
        rw [← hinfix]
        exact hfree
      have hclean : cleanResponse t = pyStrip t := by
        rw [cleanResponse, stripFences_of_no_fence _ hnf]
      have hjs : isJsonWs c0 = false := by
        cases hj : isJsonWs c0 with
        | false => rfl
        | true => rw [pySpace_of_jsonWs hj] at hc0; exact Bool.noConfusion hc0
      obtain ⟨C2, hC2⟩ : ∃ C2, pv ++ [ev] = c0 :: C2 := by
        have hco : pv ++ ev :: rr = c0 :: s0 := by rw [← hsplit, hhead]
        cases pv with
        | nil =>
          injection hco with h1 h2
          exact ⟨[], by rw [List.nil_append, h1]⟩
        | cons a pv2 =>
          rw [List.cons_append] at hco
          injection hco with h1 h2
          exact ⟨pv2 ++ [ev], by rw [List.cons_append, h1]⟩
      have hskipC : skipWs (pv ++ [ev]) = pv ++ [ev] := by
        rw [hC2, skipWs, List.dropWhile_cons_of_neg (by simp [hjs])]
      rw [hC] at hval
      rw [parseValue_append_ws rr hwsrr _ (pv ++ [ev])] at hval
      cases hvc : parseValue (3 * t.length + 4) (pv ++ [ev]) with
      | none => rw [hvc] at hval; exact Option.noConfusion hval
      | some p =>
        obtain ⟨v1, r1⟩ := p
        rw [hvc] at hval
        simp only [Option.map_some'] at hval
        injection hval with hval
        rw [Prod.mk.injEq] at hval
        obtain ⟨hp1, hp2⟩ := hval
        have hr1nil : r1 = [] := by
          have hlen := congrArg List.length hp2
          simp only [List.length_append] at hlen
          exact List.eq_nil_of_length_eq_zero (by omega)
        subst hp1
        subst hr1nil
        have hfuel : parseValue (3 * (pv ++ [ev]).length + 4) (pv ++ [ev])
            = parseValue (3 * t.length + 4) (pv ++ [ev]) := by
          apply parseValue_fuel
          · omega
          · have h1 : (pv ++ [ev]).length ≤ t.length := by
              have h2 : t.length = (t.takeWhile isJsonWs).length
                  + ((pv ++ [ev]).length + rr.length) := by
                conv_lhs => rw [ht]
                rw [hC]
                simp [List.length_append]
                omega
              omega
            omega
        show parseJsonTop (cleanResponse t) = some (Json.obj kvs)
        rw [hclean, hR, parseJsonTop, hskipC, hfuel, hvc]
        rfl
    · rw [if_neg hemp] at hparse
      exact Option.noConfusion hparse
  · exact Option.noConfusion hparse

/-- C1 witness: the spec's concrete scenario — a stubbed response carrying the
`Other Drugs/Compounds Targeting Iron/Ferroptosis/ROS` label — passes through
`classify_abstract` unchanged. -/
theorem claim1_witness :
    hasPat fencePat
      "\x7b\"label\":\"Other Drugs/Compounds Targeting Iron/Ferroptosis/ROS\",\"reason\":\"ferrostatin-1 ferroptosis study\"\x7d".data
      = false ∧
    classifyParse
      "\x7b\"label\":\"Other Drugs/Compounds Targeting Iron/Ferroptosis/ROS\",\"reason\":\"ferrostatin-1 ferroptosis study\"\x7d".data
      = some (Json.obj
          [(labelKey, Json.str "Other Drugs/Compounds Targeting Iron/Ferroptosis/ROS".data),
           (reasonKey, Json.str "ferrostatin-1 ferroptosis study".data)]) := by
  refine ⟨by decide, ?_⟩
  exact (claim1_pass_through
    "\x7b\"label\":\"Other Drugs/Compounds Targeting Iron/Ferroptosis/ROS\",\"reason\":\"ferrostatin-1 ferroptosis study\"\x7d".data
    [(labelKey, Json.str "Other Drugs/Compounds Targeting Iron/Ferroptosis/ROS".data),
     (reasonKey, Json.str "ferrostatin-1 ferroptosis study".data)]
    "Other Drugs/Compounds Targeting Iron/Ferroptosis/ROS".data
    "ferrostatin-1 ferroptosis study".data
    (by rfl) (by rfl) (by rfl) (by decide)).1
